import Mathlib

set_option maxRecDepth 40000

/-!
# Verification of the BPE tokenizer engine

Shallow embedding of the tokenizer source (Vocabulary, byte codec, pair
statistics, merge engine, trainer, encoder/decoder) and proofs of the
specification claims.

Modelling conventions:
* JS strings are modelled as Lean `String` (a list of Unicode code points);
  JS string indexing/`charCodeAt` is code-point based here.  All tokens the
  engine manipulates are ASCII-only, where the two notions coincide.
* JS `number[]` byte buffers are `List Nat`; a possibly-NaN number (result of
  `parseInt` on garbage) is an `Option Nat` with `none` playing NaN.
* JS `Map` objects are insertion-ordered association lists (`List (key × value)`);
  `Map.set` on an existing key updates in place, preserving iteration order,
  exactly as JS `Map` does.
* Fallible operations (`throw new Error`) return `Except String`.
-/

/-- The NUL character `"\0"` used by `countPairs` as the pair-key separator. -/
def nulChar : Char := Char.ofNat 0

/-- The Unicode replacement character U+FFFD produced by `TextDecoder`
on invalid byte sequences. -/
def replacementChar : Char := Char.ofNat 0xFFFD

/-! ## Vocabulary

The source keeps two `Map`s (`tokenToId`, `idToToken`) that are only ever
mutated together by `addToken`, which assigns dense sequential IDs in
insertion order.  Such a synchronized pair is represented by its insertion-
ordered token list: the ID of a token is its position in the list. -/

/-- First index of `t` in `l` (the value `tokenToId` stores, since `addToken`
never inserts a token twice). -/
def idxOfStr : List String → String → Option Nat
  | [], _ => none
  | x :: rest, t => if x = t then some 0 else (idxOfStr rest t).map (· + 1)

structure Vocabulary where
  tokens : List String

/-- Models `getId(token)`: lookup in `tokenToId`. -/
def Vocabulary.getId (v : Vocabulary) (t : String) : Option Nat :=
  idxOfStr v.tokens t

/-- Models `getToken(id)`: lookup in `idToToken`. -/
def Vocabulary.getToken (v : Vocabulary) (id : Nat) : Option String :=
  v.tokens.get? id

/-- Models `get size()`: number of registered tokens. -/
def Vocabulary.size (v : Vocabulary) : Nat :=
  v.tokens.length

/-- Models `addToken(token)`: returns the existing ID if present, otherwise appends
the token with the next sequential ID (`this.tokenToId.size`). -/
def Vocabulary.addToken (v : Vocabulary) (t : String) : Vocabulary × Nat :=
  match idxOfStr v.tokens t with
  | some i => (v, i)
  | none => (⟨v.tokens ++ [t]⟩, v.tokens.length)

/-! ## Byte codec -/

/-- UTF-8 encoding of one code point (what `TextEncoder` emits per character). -/
def utf8EncodeChar (c : Char) : List Nat :=
  let n := c.toNat
  if n < 0x80 then [n]
  else if n < 0x800 then [0xC0 + n / 64, 0x80 + n % 64]
  else if n < 0x10000 then
    [0xE0 + n / 4096, 0x80 + (n / 64) % 64, 0x80 + n % 64]
  else
    [0xF0 + n / 262144, 0x80 + (n / 4096) % 64, 0x80 + (n / 64) % 64, 0x80 + n % 64]

/-- Models `textToBytes(text)`: `TextEncoder.encode`, i.e. UTF-8 bytes of the text. -/
def textToBytes (text : String) : List Nat :=
  text.data.flatMap utf8EncodeChar

/-- WHATWG UTF-8 decoding with U+FFFD replacement on errors
(the behaviour of `new TextDecoder().decode`). -/
def utf8Decode : List Nat → List Char
  | [] => []
  | b1 :: rest =>
    if b1 < 0x80 then Char.ofNat b1 :: utf8Decode rest
    else if b1 < 0xC2 then replacementChar :: utf8Decode rest
    else if b1 < 0xE0 then
      match rest with
      | [] => [replacementChar]
      | b2 :: rest2 =>
        if 0x80 ≤ b2 ∧ b2 < 0xC0 then
          Char.ofNat ((b1 - 0xC0) * 64 + (b2 - 0x80)) :: utf8Decode rest2
        else replacementChar :: utf8Decode (b2 :: rest2)
    else if b1 < 0xF0 then
      match rest with
      | [] => [replacementChar]
      | b2 :: rest2 =>
        if (if b1 = 0xE0 then 0xA0 else 0x80) ≤ b2 ∧ b2 < (if b1 = 0xED then 0xA0 else 0xC0) then
          match rest2 with
          | [] => [replacementChar]
          | b3 :: rest3 =>
            if 0x80 ≤ b3 ∧ b3 < 0xC0 then
              Char.ofNat ((b1 - 0xE0) * 4096 + (b2 - 0x80) * 64 + (b3 - 0x80)) :: utf8Decode rest3
            else replacementChar :: utf8Decode (b3 :: rest3)
        else replacementChar :: utf8Decode (b2 :: rest2)
    else if b1 < 0xF5 then
      match rest with
      | [] => [replacementChar]
      | b2 :: rest2 =>
        if (if b1 = 0xF0 then 0x90 else 0x80) ≤ b2 ∧ b2 < (if b1 = 0xF4 then 0x90 else 0xC0) then
          match rest2 with
          | [] => [replacementChar]
          | b3 :: rest3 =>
            if 0x80 ≤ b3 ∧ b3 < 0xC0 then
              match rest3 with
              | [] => [replacementChar]
              | b4 :: rest4 =>
                if 0x80 ≤ b4 ∧ b4 < 0xC0 then
                  Char.ofNat ((b1 - 0xF0) * 262144 + (b2 - 0x80) * 4096
                      + (b3 - 0x80) * 64 + (b4 - 0x80)) :: utf8Decode rest4
                else replacementChar :: utf8Decode (b4 :: rest4)
            else replacementChar :: utf8Decode (b3 :: rest3)
        else replacementChar :: utf8Decode (b2 :: rest2)
    else replacementChar :: utf8Decode rest

/-- JS `ToUint8` coercion applied by `new Uint8Array(bytes)`:
NaN becomes 0, other numbers are taken mod 2^8. -/
def toUint8 : Option Nat → Nat
  | none => 0
  | some n => n % 256

/-- Models `bytesToText(bytes)`: `new TextDecoder().decode(new Uint8Array(bytes))`. -/
def bytesToText (bytes : List (Option Nat)) : String :=
  String.mk (utf8Decode (bytes.map toUint8))

/-- Lowercase hex digit for a value `< 16` (as produced by `toString(16)`). -/
def hexChar (n : Nat) : Char :=
  if n < 10 then Char.ofNat (48 + n) else Char.ofNat (87 + n)

/-- Canonical rendering of one byte value `< 256`: printable ASCII bytes
(32–126) render as themselves, all others as the 6-character escape
`<0xHH>` with lowercase zero-padded hex.  This expression appears verbatim
in both `textToByteTokens` and `initializeByteVocab` in the source. -/
def renderByte (b : Nat) : String :=
  if 32 ≤ b ∧ b < 127 then String.mk [Char.ofNat b]
  else String.mk ['<', '0', 'x', hexChar (b / 16), hexChar (b % 16), '>']

/-- Models `textToByteTokens(text)`: one canonical token per UTF-8 byte. -/
def textToByteTokens (text : String) : List String :=
  (textToBytes text).map renderByte

/-- Models `initializeByteVocab(vocab)`: registers the 256 canonical byte tokens. -/
def initializeByteVocab (v : Vocabulary) : Vocabulary :=
  (List.range 256).foldl (fun vc i => (vc.addToken (renderByte i)).1) v

/-- Value of a hex digit character (`parseInt` with radix 16 accepts both
cases). -/
def hexDigitVal (c : Char) : Option Nat :=
  if '0' ≤ c ∧ c ≤ '9' then some (c.toNat - 48)
  else if 'a' ≤ c ∧ c ≤ 'f' then some (c.toNat - 87)
  else if 'A' ≤ c ∧ c ≤ 'F' then some (c.toNat - 55)
  else none

/-- JS `parseInt(s, 16)` on the two-character string `[a, b]`, with `none`
playing NaN: a leading non-digit gives NaN, a `"0x"`/`"0X"` prefix is
stripped leaving the empty string (NaN), and a trailing non-digit is ignored.
(Leading whitespace/sign handling is irrelevant here: no claim involves such
strings.) -/
def jsParseIntHex2 (a b : Char) : Option Nat :=
  match hexDigitVal a with
  | none => none
  | some va =>
    if va = 0 ∧ (b = 'x' ∨ b = 'X') then none
    else
      match hexDigitVal b with
      | some vb => some (va * 16 + vb)
      | none => some va

/-- Models `tokenToBytes(token)`, on the token's character list.  The source scans
left to right with index `i`; at each position it consumes a 6-character
window as one escaped byte exactly when `i + 5 < token.length`,
`token.slice(i, i+3) === "<0x"` and `token[i+5] === ">"` — which is exactly
the first pattern below (note: the two middle characters are *not* checked
to be hex digits) — and otherwise consumes one character, pushing its code
point. -/
def tokenToBytesL : List Char → List (Option Nat)
  | '<' :: '0' :: 'x' :: c4 :: c5 :: '>' :: rest =>
    jsParseIntHex2 c4 c5 :: tokenToBytesL rest
  | c :: rest => some c.toNat :: tokenToBytesL rest
  | [] => []

/-- Models `tokenToBytes(token)`. -/
def tokenToBytes (token : String) : List (Option Nat) :=
  tokenToBytesL token.data

/-! ## Pair statistics -/

/-- Insertion-ordered JS `Map` lookup. -/
def mapGet : List (String × Nat) → String → Option Nat
  | [], _ => none
  | (k', v) :: rest, k => if k' = k then some v else mapGet rest k

/-- Insertion-ordered JS `Map.set`: update in place when present
(iteration order keeps the original position), append when absent. -/
def mapSet : List (String × Nat) → String → Nat → List (String × Nat)
  | [], k, v => [(k, v)]
  | (k', v') :: rest, k, v =>
    if k' = k then (k, v) :: rest else (k', v') :: mapSet rest k v

/-- The pair key `tokens[i] + "\0" + tokens[i + 1]`. -/
def pairKey (a b : String) : String :=
  a ++ String.mk [nulChar] ++ b

/-- Models `countPairs(tokens)`: for every adjacent index pair, increment the count
stored under the NUL-joined string key. -/
def countPairs (tokens : List String) : List (String × Nat) :=
  (tokens.zip tokens.tail).foldl
    (fun m p =>
      let key := pairKey p.1 p.2
      mapSet m key ((mapGet m key).getD 0 + 1))
    []

/-- JS `key.split("\0")` on the character list (splitting on the NUL
character, empty fields included). -/
def splitNul : List Char → List (List Char)
  | [] => [[]]
  | c :: rest =>
    if c = nulChar then [] :: splitNul rest
    else
      match splitNul rest with
      | s :: ss => (c :: s) :: ss
      | [] => [[c]]

/-- Models `key.split("\0")[i]` (every key fed to this has at least two fields, so
the default is never consulted). -/
def keyPart (key : String) (i : Nat) : String :=
  String.mk (((splitNul key.data).get? i).getD [])

/-- Models `getMostFrequentPair(pairCounts)`: first entry (in `Map` iteration order,
i.e. insertion order) whose count is strictly greater than every earlier
entry's; `null` on an empty table.  The stored key is split back on `"\0"`. -/
def getMostFrequentPair (pairCounts : List (String × Nat)) :
    Option (String × String × Nat) :=
  pairCounts.foldl
    (fun best kv =>
      match best with
      | none => some (keyPart kv.1 0, keyPart kv.1 1, kv.2)
      | some b => if b.2.2 < kv.2 then some (keyPart kv.1 0, keyPart kv.1 1, kv.2) else some b)
    none

/-! ## Merge engine

The source iterates `for (let i = 0; i < tokens.length; i++)`, comparing
`tokens[i] === token1 && tokens[i + 1] === token2`; the access `tokens[i+1]`
at the last index yields `undefined`, which is never `===` to a string.
`mergePairsIdx` is that loop verbatim (array accesses modelled by `List.get?`,
`undefined` by `none`); `mergePairs` is the equivalent structural recursion
used by the executable pipeline (the equivalence is proved below). -/

/-- The source loop of `mergePairs`, from position `i`. -/
def mergePairsIdx (tokens : List String) (t1 t2 merged : String) (i : Nat) :
    List String :=
  if h : i < tokens.length then
    if tokens.get? i = some t1 ∧ tokens.get? (i + 1) = some t2 then
      merged :: mergePairsIdx tokens t1 t2 merged (i + 2)
    else
      tokens.get ⟨i, h⟩ :: mergePairsIdx tokens t1 t2 merged (i + 1)
  else []
termination_by tokens.length - i

/-- Models `mergePairs(tokens, token1, token2, merged)`: one greedy non-overlapping
left-to-right rewrite pass.  In the singleton case the comparison of the
out-of-range `tokens[i + 1]` (`undefined`, i.e. `none`) with `token2` is kept
verbatim; it is never true. -/
def mergePairs (tokens : List String) (t1 t2 merged : String) : List String :=
  match tokens with
  | [] => []
  | [a] => if a = t1 ∧ (none : Option String) = some t2 then [merged] else [a]
  | a :: b :: rest =>
    if a = t1 ∧ some b = some t2 then merged :: mergePairs rest t1 t2 merged
    else a :: mergePairs (b :: rest) t1 t2 merged

/-! ## Trainer -/

structure MergeStep where
  step : Nat
  pair : String × String
  merged : String
  frequency : Nat
  vocabSize : Nat
  tokens : List String

structure TrainingResult where
  vocab : Vocabulary
  merges : List (String × String × String)
  steps : List MergeStep

/-- The `while (vocab.size < targetVocabSize)` training loop.  `fuel` bounds
the number of iterations; `none` means the bound was hit.  `trainBPE` calls
it with fuel `tokens.length + 1`, which is proved sufficient below (each
iteration that continues strictly shortens the token sequence). -/
def trainLoop : Nat → Vocabulary → List (String × String × String) →
    List MergeStep → Nat → List String → Nat → Option TrainingResult
  | 0, _, _, _, _, _, _ => none
  | fuel + 1, vocab, merges, steps, stepNum, tokens, target =>
    if vocab.size < target then
      match getMostFrequentPair (countPairs tokens) with
      | none => some ⟨vocab, merges, steps⟩
      | some (t1, t2, count) =>
        let merged := t1 ++ t2
        let vocab2 := (vocab.addToken merged).1
        let tokens2 := mergePairs tokens t1 t2 merged
        let step : MergeStep :=
          ⟨stepNum + 1, (t1, t2), merged, count, vocab2.size, tokens2⟩
        trainLoop fuel vocab2 (merges ++ [(t1, t2, merged)])
          (steps ++ [step]) (stepNum + 1) tokens2 target
    else some ⟨vocab, merges, steps⟩

/-- Placeholder for the (unreachable) fuel-exhaustion case of `trainBPE`. -/
def emptyResult : TrainingResult := ⟨⟨[]⟩, [], []⟩

/-- Models `trainBPE(text, targetVocabSize)`: initialize the byte vocabulary, then
run the training loop.  The per-step `onStep` callback of the source is a
pure synchronous observation hook (it must not mutate trainer state) and is
not modelled. -/
def trainBPE (text : String) (targetVocabSize : Nat) : TrainingResult :=
  let vocab := initializeByteVocab ⟨[]⟩
  let tokens := textToByteTokens text
  (trainLoop (tokens.length + 1) vocab [] [] 0 tokens targetVocabSize).getD emptyResult

/-! ## Encoder / decoder -/

/-- The merge-replay loop of `encode`: apply every learned rule, in training
order, as one full `mergePairs` pass. -/
def applyMerges (merges : List (String × String × String))
    (tokens : List String) : List String :=
  merges.foldl (fun ts m => mergePairs ts m.1 m.2.1 m.2.2) tokens

/-- The ID-mapping loop of `encode`: `throw` on the first unregistered token. -/
def encodeIds (v : Vocabulary) : List String → Except String (List Nat)
  | [] => .ok []
  | t :: rest =>
    match v.getId t with
    | none => .error ("Token " ++ t ++ " not found in vocabulary")
    | some id =>
      match encodeIds v rest with
      | .ok ids => .ok (id :: ids)
      | .error e => .error e

/-- Models `encode(text, vocab, merges)`. -/
def encode (text : String) (v : Vocabulary)
    (merges : List (String × String × String)) : Except String (List Nat) :=
  encodeIds v (applyMerges merges (textToByteTokens text))

/-- The ID-resolution loop of `decode`: `throw` on the first unknown ID. -/
def decodeTokens (v : Vocabulary) : List Nat → Except String (List String)
  | [] => .ok []
  | id :: rest =>
    match v.getToken id with
    | none => .error ("ID " ++ toString id ++ " not found in vocabulary")
    | some t =>
      match decodeTokens v rest with
      | .ok ts => .ok (t :: ts)
      | .error e => .error e

/-- Models `decode(ids, vocab)`: resolve IDs to tokens, expand every token to bytes,
decode the flat byte buffer as UTF-8. -/
def decode (ids : List Nat) (v : Vocabulary) : Except String String :=
  match decodeTokens v ids with
  | .error e => .error e
  | .ok ts => .ok (bytesToText (ts.flatMap tokenToBytes))

instance {e a : Type} [DecidableEq e] [DecidableEq a] : DecidableEq (Except e a) := fun x y =>
  match x, y with
  | .ok u, .ok v =>
    if h : u = v then isTrue (by rw [h]) else isFalse (fun hc => h (Except.ok.inj hc))
  | .error u, .error v =>
    if h : u = v then isTrue (by rw [h]) else isFalse (fun hc => h (Except.error.inj hc))
  | .ok _, .error _ => isFalse (fun hc => Except.noConfusion hc)
  | .error _, .ok _ => isFalse (fun hc => Except.noConfusion hc)

/-! ## Derived notions used in specification statements -/

/-- The token does not contain the NUL character.  Every token this engine
creates is NUL-free (byte tokens render NUL as `<0x00>`); a NUL inside a
token would collide with the `countPairs` key separator. -/
def nulFree (s : String) : Prop := nulChar ∉ s.data

instance (s : String) : Decidable (nulFree s) := by
  unfold nulFree; infer_instance

/-- Number of entries of `ps` whose NUL-joined pair key equals `k`. -/
def keyCnt (ps : List (String × String)) (k : String) : Nat :=
  (ps.filter (fun p => decide (pairKey p.1 p.2 = k))).length

/-- Number of adjacent occurrences of the ordered pair `(a, b)` in the
token sequence. -/
def countAdj (ts : List String) (a b : String) : Nat :=
  ((ts.zip ts.tail).filter (fun p => decide (p.1 = a ∧ p.2 = b))).length

/-- Concatenation of the canonical byte renderings of a byte segment:
the character content of a token that segment stands for. -/
def atomsOf (bs : List Nat) : List Char :=
  bs.flatMap (fun b => (renderByte b).data)

/-- The byte list contains no contiguous occurrence of `[60, 48, 120]`
(the UTF-8 bytes of the literal characters `"<0x"`). -/
def noLit0x (bs : List Nat) : Prop := ¬ [60, 48, 120] <:+: bs

instance (bs : List Nat) : Decidable (noLit0x bs) := by
  unfold noLit0x; infer_instance

/-- Models `Seg ts bs`: the token list `ts` is a segmentation of the byte list
`bs` — each token is the canonical rendering (`atomsOf`) of one contiguous
segment of `bs`, in order. -/
inductive Seg : List String → List Nat → Prop
  | nil : Seg [] []
  | cons (p bs : List Nat) (t : String) (ts : List String) :
      t = String.mk (atomsOf p) → Seg ts bs → Seg (t :: ts) (p ++ bs)

/-- The fold step used by `countPairs`. -/
def countStep (m : List (String × Nat)) (p : String × String) :
    List (String × Nat) :=
  mapSet m (pairKey p.1 p.2) ((mapGet m (pairKey p.1 p.2)).getD 0 + 1)

/-- The fold step used by `getMostFrequentPair`. -/
def bestStep (best : Option (String × String × Nat)) (kv : String × Nat) :
    Option (String × String × Nat) :=
  match best with
  | none => some (keyPart kv.1 0, keyPart kv.1 1, kv.2)
  | some b => if b.2.2 < kv.2 then some (keyPart kv.1 0, keyPart kv.1 1, kv.2) else some b

/-! ## Lemmas: first-index lookup and `addToken` -/

theorem idxOfStr_eq_none {l : List String} {t : String} :
    idxOfStr l t = none ↔ t ∉ l := by
  induction l with
  | nil => simp [idxOfStr]
  | cons x rest ih =>
    by_cases hx : x = t
    · simp [idxOfStr, hx]
    · simp [idxOfStr, hx, ih, Ne.symm hx]

theorem idxOfStr_get? {l : List String} {t : String} {i : Nat}
    (h : idxOfStr l t = some i) : l.get? i = some t := by
  induction l generalizing i with
  | nil => simp [idxOfStr] at h
  | cons x rest ih =>
    by_cases hx : x = t
    · simp [idxOfStr, hx] at h
      subst h; simp [hx]
    · simp [idxOfStr, hx] at h
      obtain ⟨j, hj, rfl⟩ := h
      simpa using ih hj

theorem idxOfStr_append_left {l : List String} {t : String} {i : Nat}
    (h : idxOfStr l t = some i) (l' : List String) :
    idxOfStr (l ++ l') t = some i := by
  induction l generalizing i with
  | nil => simp [idxOfStr] at h
  | cons x rest ih =>
    by_cases hx : x = t
    · simp [idxOfStr, hx] at h ⊢; exact h
    · simp [idxOfStr, hx] at h ⊢
      obtain ⟨j, hj, rfl⟩ := h
      exact ⟨j, ih hj, rfl⟩

theorem idxOfStr_of_get? {l : List String} {t : String} {i : Nat}
    (hget : l.get? i = some t) (hfst : ∀ j, j < i → l.get? j ≠ some t) :
    idxOfStr l t = some i := by
  induction l generalizing i with
  | nil => simp at hget
  | cons x rest ih =>
    cases i with
    | zero =>
      simp at hget
      simp [idxOfStr, hget]
    | succ i =>
      have hx : x ≠ t := by
        have := hfst 0 (Nat.succ_pos i)
        simpa using this
      rw [List.get?_cons_succ] at hget
      have : idxOfStr rest t = some i :=
        ih hget (fun j hj => by
          have := hfst (j + 1) (Nat.succ_lt_succ hj)
          rwa [List.get?_cons_succ] at this)
      simp [idxOfStr, hx, this]

theorem addToken_tokens (v : Vocabulary) (t : String) :
    ((v.addToken t).1).tokens = if t ∈ v.tokens then v.tokens else v.tokens ++ [t] := by
  unfold Vocabulary.addToken
  by_cases hmem : t ∈ v.tokens
  · have : idxOfStr v.tokens t ≠ none := fun hnone => (idxOfStr_eq_none.mp hnone) hmem
    obtain ⟨i, hi⟩ := Option.ne_none_iff_exists'.mp this
    simp [hi, hmem]
  · have : idxOfStr v.tokens t = none := idxOfStr_eq_none.mpr hmem
    simp [this, hmem]

theorem addToken_size_le (v : Vocabulary) (t : String) :
    v.size ≤ ((v.addToken t).1).size ∧ ((v.addToken t).1).size ≤ v.size + 1 := by
  have h := addToken_tokens v t
  unfold Vocabulary.size
  rw [h]
  by_cases hmem : t ∈ v.tokens <;> simp [hmem]

theorem addToken_size_eq (v : Vocabulary) (t : String) :
    ((v.addToken t).1).size = if t ∈ v.tokens then v.size else v.size + 1 := by
  have h := addToken_tokens v t
  unfold Vocabulary.size
  rw [h]
  by_cases hmem : t ∈ v.tokens <;> simp [hmem]

/-! ## Lemmas: the canonical byte tokens and `initializeByteVocab` -/

theorem char_toNat_valid (c : Char) :
    c.toNat < 0xD800 ∨ (0xDFFF < c.toNat ∧ c.toNat < 0x110000) := c.valid

theorem toNat_charOfNat {n : Nat} (h : n.isValidChar) :
    (Char.ofNat n).toNat = n := by
  rw [Char.ofNat, dif_pos h]
  rfl

theorem toNat_charOfNat_small {n : Nat} (h : n < 0xD800) :
    (Char.ofNat n).toNat = n :=
  toNat_charOfNat (Or.inl h)

theorem charOfNat_inj_small {a b : Nat} (ha : a < 0xD800) (hb : b < 0xD800)
    (h : Char.ofNat a = Char.ofNat b) : a = b := by
  have := congrArg Char.toNat h
  rwa [toNat_charOfNat_small ha, toNat_charOfNat_small hb] at this

theorem hexChar_inj_aux :
    ∀ a : Nat, a < 16 → ∀ b : Nat, b < 16 → (hexChar a = hexChar b → a = b) := by
  decide

theorem hexChar_inj {a b : Nat} (ha : a < 16) (hb : b < 16)
    (h : hexChar a = hexChar b) : a = b :=
  hexChar_inj_aux a ha b hb h

theorem renderByte_inj {a b : Nat} (ha : a < 256) (hb : b < 256)
    (h : renderByte a = renderByte b) : a = b := by
  unfold renderByte at h
  by_cases hpa : 32 ≤ a ∧ a < 127 <;> by_cases hpb : 32 ≤ b ∧ b < 127
  · rw [if_pos hpa, if_pos hpb] at h
    have : Char.ofNat a = Char.ofNat b := by
      have := congrArg String.data h
      simpa using this
    exact charOfNat_inj_small (by omega) (by omega) this
  · rw [if_pos hpa, if_neg hpb] at h
    have := congrArg (fun s => s.data.length) h
    simp at this
  · rw [if_neg hpa, if_pos hpb] at h
    have := congrArg (fun s => s.data.length) h
    simp at this
  · rw [if_neg hpa, if_neg hpb] at h
    have hd := congrArg String.data h
    simp at hd
    obtain ⟨h1, h2⟩ := hd
    have e1 : a / 16 = b / 16 := hexChar_inj (by omega) (by omega) h1
    have e2 : a % 16 = b % 16 := hexChar_inj (by omega) (by omega) h2
    omega

/-- The explicit value of the initialized byte vocabulary. -/
theorem initializeByteVocab_tokens :
    (initializeByteVocab ⟨[]⟩).tokens = (List.range 256).map renderByte := by
  have main : ∀ n, n ≤ 256 →
      ((List.range n).foldl (fun vc i => (vc.addToken (renderByte i)).1) ⟨[]⟩ : Vocabulary).tokens
        = (List.range n).map renderByte := by
    intro n hn
    induction n with
    | zero => simp
    | succ m ih =>
      have hm : m ≤ 256 := Nat.le_of_succ_le hn
      rw [List.range_succ, List.foldl_append, List.map_append]
      have prev := ih hm
      simp only [List.foldl_cons, List.foldl_nil, List.map_cons, List.map_nil]
      rw [addToken_tokens]
      have hnot : renderByte m ∉ ((List.range m).foldl
          (fun vc i => (vc.addToken (renderByte i)).1) ⟨[]⟩ : Vocabulary).tokens := by
        rw [prev]
        intro hmem
        obtain ⟨j, hj, hje⟩ := List.mem_map.mp hmem
        have hjlt : j < m := List.mem_range.mp hj
        have := renderByte_inj (by omega) (by omega) hje
        omega
      rw [if_neg hnot, prev]
  exact main 256 (Nat.le_refl 256)

/-! ## Lemmas: the merge engine -/

theorem mergePairs_nil (t1 t2 m : String) : mergePairs [] t1 t2 m = [] := rfl

theorem mergePairs_one (t1 t2 m a : String) :
    mergePairs [a] t1 t2 m =
      if a = t1 ∧ (none : Option String) = some t2 then [m] else [a] := rfl

theorem mergePairs_one' (t1 t2 m a : String) : mergePairs [a] t1 t2 m = [a] := by
  rw [mergePairs_one, if_neg]
  rintro ⟨-, hbad⟩
  exact Option.noConfusion hbad

theorem mergePairs_cons₂ (t1 t2 m a b : String) (rest : List String) :
    mergePairs (a :: b :: rest) t1 t2 m =
      if a = t1 ∧ some b = some t2 then m :: mergePairs rest t1 t2 m
      else a :: mergePairs (b :: rest) t1 t2 m := rfl

/-- Two-step list induction matching the recursion pattern of `mergePairs`. -/
theorem twoStepInduction {α : Type} {P : List α → Prop} (h0 : P [])
    (h1 : ∀ a, P [a])
    (h2 : ∀ a b rest, P rest → P (b :: rest) → P (a :: b :: rest)) :
    ∀ ts : List α, P ts := by
  have main : ∀ n (ts : List α), ts.length ≤ n → P ts := by
    intro n
    induction n with
    | zero =>
      intro ts h
      cases ts with
      | nil => exact h0
      | cons a rest => simp at h
    | succ n ih =>
      intro ts h
      match ts with
      | [] => exact h0
      | [a] => exact h1 a
      | a :: b :: rest =>
        have hr : rest.length ≤ n := by simp at h; omega
        have hbr : (b :: rest).length ≤ n := by simp at h ⊢; omega
        exact h2 a b rest (ih rest hr) (ih (b :: rest) hbr)
  exact fun ts => main ts.length ts (Nat.le_refl _)

theorem list_get?_eq_head?_drop {α : Type} (l : List α) (i : Nat) :
    l.get? i = (l.drop i).head? := by
  induction l generalizing i with
  | nil => simp
  | cons x rest ih =>
    cases i with
    | zero => simp
    | succ i => simpa using ih i

/-- The source index loop equals the structural recursion, from any start
position.  In particular the out-of-range access `tokens[i + 1]` compared
against `token2` never matches. -/
theorem mergePairsIdx_eq_drop (tokens : List String) (t1 t2 m : String) :
    ∀ i, mergePairsIdx tokens t1 t2 m i = mergePairs (tokens.drop i) t1 t2 m := by
  have main : ∀ n i, tokens.length ≤ i + n →
      mergePairsIdx tokens t1 t2 m i = mergePairs (tokens.drop i) t1 t2 m := by
    intro n
    induction n with
    | zero =>
      intro i h
      rw [mergePairsIdx, dif_neg (by omega), List.drop_eq_nil_of_le (by omega),
        mergePairs_nil]
    | succ n ih =>
      intro i h
      by_cases hi : i < tokens.length
      · rw [mergePairsIdx, dif_pos hi]
        have hget : tokens.get? i = some (tokens.get ⟨i, hi⟩) := List.get?_eq_get hi
        have hdropi : tokens.drop i = tokens.get ⟨i, hi⟩ :: tokens.drop (i + 1) :=
          List.drop_eq_get_cons hi
        by_cases hcond : tokens.get? i = some t1 ∧ tokens.get? (i + 1) = some t2
        · rw [if_pos hcond]
          have ht1 : tokens.get ⟨i, hi⟩ = t1 := by
            have := hcond.1
            rw [hget] at this
            exact Option.some.inj this
          cases hdrop : tokens.drop (i + 1) with
          | nil =>
            exfalso
            have := hcond.2
            rw [list_get?_eq_head?_drop, hdrop] at this
            simp at this
          | cons b rest' =>
            have hb : b = t2 := by
              have := hcond.2
              rw [list_get?_eq_head?_drop, hdrop] at this
              simpa using this
            have hrest' : rest' = tokens.drop (i + 1 + 1) := by
              have htl := List.tail_drop tokens (i + 1)
              rw [hdrop] at htl
              simpa using htl
            rw [hdropi, ht1, hdrop, hb, mergePairs_cons₂, if_pos ⟨rfl, rfl⟩]
            rw [hrest', ih (i + 1 + 1) (by omega)]
        · rw [if_neg hcond]
          rw [ih (i + 1) (by omega), hdropi]
          cases hdrop : tokens.drop (i + 1) with
          | nil =>
            rw [mergePairs_nil, mergePairs_one']
          | cons b rest' =>
            rw [mergePairs_cons₂, if_neg]
            rintro ⟨h1, h2⟩
            apply hcond
            constructor
            · rw [hget, h1]
            · rw [list_get?_eq_head?_drop, hdrop]
              simpa using h2
      · rw [mergePairsIdx, dif_neg hi, List.drop_eq_nil_of_le (by omega),
          mergePairs_nil]
  exact fun i => main (tokens.length) i (by omega)

theorem mergePairsIdx_eq (tokens : List String) (t1 t2 m : String) :
    mergePairsIdx tokens t1 t2 m 0 = mergePairs tokens t1 t2 m := by
  simpa using mergePairsIdx_eq_drop tokens t1 t2 m 0

theorem mergePairs_ne_nil {ts : List String} (h : ts ≠ []) (t1 t2 m : String) :
    mergePairs ts t1 t2 m ≠ [] := by
  match ts with
  | [a] => rw [mergePairs_one']; simp
  | a :: b :: rest =>
    rw [mergePairs_cons₂]
    split <;> simp

theorem mergePairs_length_le (t1 t2 m : String) :
    ∀ ts : List String, (mergePairs ts t1 t2 m).length ≤ ts.length := by
  apply twoStepInduction
  · simp [mergePairs_nil]
  · intro a
    rw [mergePairs_one']
  · intro a b rest ih1 ih2
    rw [mergePairs_cons₂]
    split
    · simp only [List.length_cons]
      omega
    · simp only [List.length_cons]
      simp at ih2
      omega

/-- If the pair actually occurs adjacently, one pass strictly shortens the
sequence. -/
theorem mergePairs_length_lt (t1 t2 m : String) :
    ∀ ts : List String, (t1, t2) ∈ ts.zip ts.tail →
      (mergePairs ts t1 t2 m).length < ts.length := by
  apply twoStepInduction
  · intro h; simp at h
  · intro a h; simp at h
  · intro a b rest ih1 ih2 hmem
    rw [mergePairs_cons₂]
    by_cases hc : a = t1 ∧ some b = some t2
    · rw [if_pos hc]
      simp only [List.length_cons]
      have := mergePairs_length_le t1 t2 m rest
      omega
    · rw [if_neg hc]
      simp only [List.length_cons]
      have hmem' : (t1, t2) ∈ (b :: rest).zip rest := by
        simp only [List.zip_cons_cons, List.tail_cons, List.mem_cons] at hmem
        rcases hmem with heq | h
        · exfalso
          apply hc
          have h1 : a = t1 := ((congrArg Prod.fst heq).symm : a = t1)
          have h2 : b = t2 := ((congrArg Prod.snd heq).symm : b = t2)
          exact ⟨h1, by rw [h2]⟩
        · exact h
      have := ih2 (by simpa using hmem')
      simp at this ⊢
      omega

/-- Every token in the output is an original token or the merged token. -/
theorem mergePairs_mem (t1 t2 m : String) :
    ∀ ts : List String, ∀ x ∈ mergePairs ts t1 t2 m, x ∈ ts ∨ x = m := by
  apply twoStepInduction
  · intro x hx; simp [mergePairs_nil] at hx
  · intro a x hx
    rw [mergePairs_one'] at hx
    simp at hx
    simp [hx]
  · intro a b rest ih1 ih2 x hx
    rw [mergePairs_cons₂] at hx
    split at hx
    · simp at hx
      rcases hx with rfl | hx
      · right; rfl
      · rcases ih1 x hx with h | h
        · left; simp [h]
        · right; exact h
    · simp at hx
      rcases hx with rfl | hx
      · left; simp
      · rcases ih2 x hx with h | h
        · left; simp at h ⊢; tauto
        · right; exact h

/-! ## Lemmas: pair statistics -/

theorem countPairs_short {ts : List String} (h : ts.length < 2) :
    countPairs ts = [] := by
  match ts with
  | [] => rfl
  | [t] => rfl
  | a :: b :: rest => exfalso; simp at h; omega

theorem mapGet_mapSet_same (m : List (String × Nat)) (k : String) (v : Nat) :
    mapGet (mapSet m k v) k = some v := by
  induction m with
  | nil => simp [mapSet, mapGet]
  | cons kv rest ih =>
    obtain ⟨k', v'⟩ := kv
    by_cases hk : k' = k
    · simp [mapSet, hk, mapGet]
    · simp [mapSet, hk, mapGet, ih]

theorem mapGet_mapSet_other (m : List (String × Nat)) {k k' : String} (v : Nat)
    (h : k' ≠ k) : mapGet (mapSet m k v) k' = mapGet m k' := by
  induction m with
  | nil => simp [mapSet, mapGet, Ne.symm h]
  | cons kv rest ih =>
    obtain ⟨k₀, v₀⟩ := kv
    by_cases hk : k₀ = k
    · subst hk
      simp [mapSet, mapGet, Ne.symm h]
    · simp [mapSet, hk, mapGet, ih]

theorem mapSet_mem {m : List (String × Nat)} {k : String} {v : Nat}
    {kv : String × Nat} (h : kv ∈ mapSet m k v) : kv.1 = k ∨ kv ∈ m := by
  induction m with
  | nil => simp [mapSet] at h; simp [h]
  | cons kv₀ rest ih =>
    obtain ⟨k₀, v₀⟩ := kv₀
    by_cases hk : k₀ = k
    · rw [mapSet, if_pos hk] at h
      rcases List.mem_cons.mp h with rfl | h
      · left; rfl
      · right; exact List.mem_cons_of_mem _ h
    · rw [mapSet, if_neg hk] at h
      rcases List.mem_cons.mp h with rfl | h
      · right; exact List.mem_cons_self _ _
      · rcases ih h with h | h
        · left; exact h
        · right; exact List.mem_cons_of_mem _ h

theorem mapSet_ne_nil (m : List (String × Nat)) (k : String) (v : Nat) :
    mapSet m k v ≠ [] := by
  cases m with
  | nil => simp [mapSet]
  | cons kv rest =>
    obtain ⟨k₀, v₀⟩ := kv
    rw [mapSet]
    split <;> simp

theorem countPairs_eq_foldl (ts : List String) :
    countPairs ts = (ts.zip ts.tail).foldl countStep [] := rfl

theorem countFold_getD (k : String) :
    ∀ (ps : List (String × String)) (m : List (String × Nat)),
      (mapGet (ps.foldl countStep m) k).getD 0 = (mapGet m k).getD 0 + keyCnt ps k := by
  intro ps
  induction ps with
  | nil => intro m; simp [keyCnt]
  | cons p ps ih =>
    intro m
    rw [List.foldl_cons]
    rw [ih]
    by_cases hk : pairKey p.1 p.2 = k
    · have : mapGet (countStep m p) k = some ((mapGet m (pairKey p.1 p.2)).getD 0 + 1) := by
        rw [countStep, hk, ← hk, mapGet_mapSet_same]
      rw [this]
      have hcnt : keyCnt (p :: ps) k = keyCnt ps k + 1 := by
        unfold keyCnt
        rw [List.filter_cons]
        simp [hk]
      rw [hk] at *
      simp
      omega
    · have : mapGet (countStep m p) k = mapGet m k := by
        rw [countStep, mapGet_mapSet_other _ _ (fun he => hk he.symm)]
      rw [this]
      have hcnt : keyCnt (p :: ps) k = keyCnt ps k := by
        unfold keyCnt
        rw [List.filter_cons]
        simp [hk]
      rw [hcnt]

theorem countFold_none (k : String) :
    ∀ (ps : List (String × String)) (m : List (String × Nat)),
      (mapGet (ps.foldl countStep m) k = none ↔ mapGet m k = none ∧ keyCnt ps k = 0) := by
  intro ps
  induction ps with
  | nil => intro m; simp [keyCnt]
  | cons p ps ih =>
    intro m
    rw [List.foldl_cons, ih]
    by_cases hk : pairKey p.1 p.2 = k
    · have : mapGet (countStep m p) k = some ((mapGet m (pairKey p.1 p.2)).getD 0 + 1) := by
        rw [countStep, hk, ← hk, mapGet_mapSet_same]
      rw [this]
      have hcnt : keyCnt (p :: ps) k = keyCnt ps k + 1 := by
        unfold keyCnt
        rw [List.filter_cons]
        simp [hk]
      simp [hcnt]
    · have : mapGet (countStep m p) k = mapGet m k := by
        rw [countStep, mapGet_mapSet_other _ _ (fun he => hk he.symm)]
      rw [this]
      have hcnt : keyCnt (p :: ps) k = keyCnt ps k := by
        unfold keyCnt
        rw [List.filter_cons]
        simp [hk]
      rw [hcnt]

/-- The count table, read back: the stored count for key `k` is the number
of adjacent pairs whose key is `k` (absent iff that number is zero). -/
theorem countPairs_get (ts : List String) (k : String) :
    mapGet (countPairs ts) k =
      if keyCnt (ts.zip ts.tail) k = 0 then none
      else some (keyCnt (ts.zip ts.tail) k) := by
  have h1 := countFold_getD k (ts.zip ts.tail) []
  have h2 := countFold_none k (ts.zip ts.tail) []
  rw [countPairs_eq_foldl]
  by_cases hz : keyCnt (ts.zip ts.tail) k = 0
  · rw [if_pos hz]
    rw [h2]
    exact ⟨by simp [mapGet], hz⟩
  · rw [if_neg hz]
    cases hget : mapGet ((ts.zip ts.tail).foldl countStep []) k with
    | none =>
      exfalso
      exact hz ((h2.mp hget).2)
    | some v =>
      rw [hget] at h1
      simp [mapGet] at h1
      rw [h1]

theorem countPairs_keys {ts : List String} {kv : String × Nat}
    (h : kv ∈ countPairs ts) :
    ∃ p ∈ ts.zip ts.tail, kv.1 = pairKey p.1 p.2 := by
  rw [countPairs_eq_foldl] at h
  have main : ∀ (ps : List (String × String)) (m : List (String × Nat)),
      kv ∈ ps.foldl countStep m →
      kv ∈ m ∨ ∃ p ∈ ps, kv.1 = pairKey p.1 p.2 := by
    intro ps
    induction ps with
    | nil => intro m h; exact Or.inl h
    | cons p ps ih =>
      intro m h
      rw [List.foldl_cons] at h
      rcases ih _ h with h | ⟨q, hq, he⟩
      · rcases mapSet_mem h with he | hm
        · right; exact ⟨p, List.mem_cons_self _ _, he⟩
        · left; exact hm
      · right; exact ⟨q, List.mem_cons_of_mem _ hq, he⟩
  rcases main _ [] h with h | h
  · simp at h
  · exact h

theorem countPairs_ne_nil (a b : String) (rest : List String) :
    countPairs (a :: b :: rest) ≠ [] := by
  rw [countPairs_eq_foldl]
  have main : ∀ (ps : List (String × String)) (m : List (String × Nat)),
      m ≠ [] → ps.foldl countStep m ≠ [] := by
    intro ps
    induction ps with
    | nil => intro m h; simpa using h
    | cons p ps ih =>
      intro m h
      rw [List.foldl_cons]
      exact ih _ (mapSet_ne_nil _ _ _)
  have : (a :: b :: rest).zip (a :: b :: rest).tail
      = (a, b) :: (b :: rest).zip rest := by simp
  rw [this, List.foldl_cons]
  exact main _ _ (mapSet_ne_nil _ _ _)

/-! ## Lemmas: pair keys and `getMostFrequentPair` -/

theorem str_data_append (s t : String) : (s ++ t).data = s.data ++ t.data := by
  cases s; cases t; rfl

theorem str_mk_data (s : String) : String.mk s.data = s := rfl

theorem pairKey_data (a b : String) :
    (pairKey a b).data = a.data ++ nulChar :: b.data := by
  unfold pairKey
  rw [str_data_append, str_data_append]
  simp

theorem splitNul_no_nul {cs : List Char} (h : nulChar ∉ cs) :
    splitNul cs = [cs] := by
  induction cs with
  | nil => rfl
  | cons c rest ih =>
    have hc : c ≠ nulChar := fun he => h (he ▸ List.mem_cons_self c rest)
    have hrest : nulChar ∉ rest := fun hm => h (List.mem_cons_of_mem _ hm)
    rw [splitNul, if_neg hc, ih hrest]

theorem splitNul_sep {x : List Char} (y : List Char) (h : nulChar ∉ x) :
    splitNul (x ++ nulChar :: y) = x :: splitNul y := by
  induction x with
  | nil => simp [splitNul]
  | cons c rest ih =>
    have hc : c ≠ nulChar := fun he => h (he ▸ List.mem_cons_self c rest)
    have hrest : nulChar ∉ rest := fun hm => h (List.mem_cons_of_mem _ hm)
    rw [List.cons_append, splitNul, if_neg hc, ih hrest]

theorem keyPart_pairKey_fst {a : String} (b : String) (ha : nulFree a) :
    keyPart (pairKey a b) 0 = a := by
  unfold keyPart
  rw [pairKey_data, splitNul_sep _ ha]
  simp [str_mk_data]

theorem keyPart_pairKey_snd {a b : String} (ha : nulFree a) (hb : nulFree b) :
    keyPart (pairKey a b) 1 = b := by
  unfold keyPart
  rw [pairKey_data, splitNul_sep _ ha, splitNul_no_nul hb]
  simp [str_mk_data]

theorem append_nul_inj :
    ∀ {x u : List Char} {y w : List Char}, nulChar ∉ x → nulChar ∉ u →
      x ++ nulChar :: y = u ++ nulChar :: w → x = u ∧ y = w := by
  intro x
  induction x with
  | nil =>
    intro u y w _ hu h
    cases u with
    | nil => simpa using h
    | cons c urest =>
      exfalso
      simp at h
      exact hu (h.1 ▸ List.mem_cons_self c urest)
  | cons c xrest ih =>
    intro u y w hx hu h
    cases u with
    | nil =>
      exfalso
      simp at h
      exact hx (h.1 ▸ List.mem_cons_self c xrest)
    | cons d urest =>
      simp at h
      obtain ⟨rfl, h2⟩ := h
      have hx' : nulChar ∉ xrest := fun hm => hx (List.mem_cons_of_mem _ hm)
      have hu' : nulChar ∉ urest := fun hm => hu (List.mem_cons_of_mem _ hm)
      obtain ⟨rfl, rfl⟩ := ih hx' hu' h2
      exact ⟨rfl, rfl⟩

theorem pairKey_inj {a b a' b' : String} (ha : nulFree a) (ha' : nulFree a')
    (h : pairKey a b = pairKey a' b') : a = a' ∧ b = b' := by
  have hd := congrArg String.data h
  rw [pairKey_data, pairKey_data] at hd
  obtain ⟨h1, h2⟩ := append_nul_inj ha ha' hd
  constructor
  · cases a; cases a'
    exact congrArg String.mk h1
  · cases b; cases b'
    exact congrArg String.mk h2

theorem getMostFrequentPair_eq_foldl (m : List (String × Nat)) :
    getMostFrequentPair m = m.foldl bestStep none := rfl

theorem bestStep_none_eq (kv : String × Nat) :
    bestStep none kv = some (keyPart kv.1 0, keyPart kv.1 1, kv.2) := rfl

theorem bestStep_some_eq (b : String × String × Nat) (kv : String × Nat) :
    bestStep (some b) kv =
      if b.2.2 < kv.2 then some (keyPart kv.1 0, keyPart kv.1 1, kv.2)
      else some b := rfl

theorem bestStep_ne_none (acc : Option (String × String × Nat))
    (kv : String × Nat) : bestStep acc kv ≠ none := by
  cases acc with
  | none => rw [bestStep_none_eq]; simp
  | some b => rw [bestStep_some_eq]; split <;> simp

theorem foldl_bestStep_some :
    ∀ (m : List (String × Nat)) (b : String × String × Nat),
      m.foldl bestStep (some b) ≠ none := by
  intro m
  induction m with
  | nil => intro b; simp
  | cons kv rest ih =>
    intro b
    rw [List.foldl_cons]
    cases hstep : bestStep (some b) kv with
    | none => exact absurd hstep (bestStep_ne_none _ _)
    | some b' => exact ih b'

theorem getMostFrequentPair_eq_none_iff (m : List (String × Nat)) :
    getMostFrequentPair m = none ↔ m = [] := by
  constructor
  · intro h
    cases m with
    | nil => rfl
    | cons kv rest =>
      exfalso
      rw [getMostFrequentPair_eq_foldl, List.foldl_cons, bestStep_none_eq] at h
      exact foldl_bestStep_some rest _ h
  · rintro rfl; rfl

theorem getMostFrequentPair_mem {m : List (String × Nat)}
    {r : String × String × Nat} (h : getMostFrequentPair m = some r) :
    ∃ kv ∈ m, r = (keyPart kv.1 0, keyPart kv.1 1, kv.2) := by
  rw [getMostFrequentPair_eq_foldl] at h
  have main : ∀ (l : List (String × Nat)) (acc : Option (String × String × Nat)),
      l.foldl bestStep acc = some r →
      acc = some r ∨ ∃ kv ∈ l, r = (keyPart kv.1 0, keyPart kv.1 1, kv.2) := by
    intro l
    induction l with
    | nil => intro acc h; left; simpa using h
    | cons kv rest ih =>
      intro acc h
      rw [List.foldl_cons] at h
      rcases ih _ h with hstep | ⟨kv', hkv', he⟩
      · cases acc with
        | none =>
          right
          rw [bestStep_none_eq] at hstep
          exact ⟨kv, List.mem_cons_self _ _, (Option.some.inj hstep).symm⟩
        | some b =>
          rw [bestStep_some_eq] at hstep
          split at hstep
          · right
            exact ⟨kv, List.mem_cons_self _ _, (Option.some.inj hstep).symm⟩
          · left; exact hstep
      · right; exact ⟨kv', List.mem_cons_of_mem _ hkv', he⟩
  rcases main m none h with h | h
  · exact absurd h (by simp)
  · exact h

/-- With NUL-free tokens, a selected pair really occurs adjacently in the
sequence. -/
theorem selected_pair_adjacent {ts : List String} {t1 t2 : String} {c : Nat}
    (hfree : ∀ t ∈ ts, nulFree t)
    (h : getMostFrequentPair (countPairs ts) = some (t1, t2, c)) :
    (t1, t2) ∈ ts.zip ts.tail := by
  obtain ⟨kv, hkv, he⟩ := getMostFrequentPair_mem h
  obtain ⟨p, hp, hkey⟩ := countPairs_keys hkv
  have hx : p.1 ∈ ts := (List.of_mem_zip hp).1
  have hy : p.2 ∈ ts := by
    have := (List.of_mem_zip hp).2
    cases ts with
    | nil => simp at this
    | cons a rest => exact List.mem_cons_of_mem _ this
  have hfx : nulFree p.1 := hfree _ hx
  have hfy : nulFree p.2 := hfree _ hy
  have e1 : t1 = p.1 := by
    have := congrArg (fun r => r.1) he
    simp [hkey, keyPart_pairKey_fst _ hfx] at this
    exact this
  have e2 : t2 = p.2 := by
    have := congrArg (fun r => r.2.1) he
    simp [hkey, keyPart_pairKey_snd hfx hfy] at this
    exact this
  rw [e1, e2]
  exact hp

/-! ## Lemmas: NUL-freeness of engine tokens -/

theorem hexChar_ne_nul : ∀ d : Nat, d < 16 → hexChar d ≠ nulChar := by
  decide

theorem nulFree_renderByte {b : Nat} (hb : b < 256) : nulFree (renderByte b) := by
  unfold nulFree renderByte
  by_cases hp : 32 ≤ b ∧ b < 127
  · rw [if_pos hp]
    intro hmem
    simp at hmem
    have := congrArg Char.toNat hmem
    rw [toNat_charOfNat_small (by omega)] at this
    have hz : nulChar.toNat = 0 := rfl
    omega
  · rw [if_neg hp]
    intro hmem
    simp at hmem
    rcases hmem with h | h | h | h | h | h
    · exact absurd (congrArg Char.toNat h.symm) (by decide)
    · exact absurd (congrArg Char.toNat h.symm) (by decide)
    · exact absurd (congrArg Char.toNat h.symm) (by decide)
    · exact hexChar_ne_nul (b / 16) (by omega) h.symm
    · exact hexChar_ne_nul (b % 16) (by omega) h.symm
    · exact absurd (congrArg Char.toNat h.symm) (by decide)

theorem nulFree_append {a b : String} (ha : nulFree a) (hb : nulFree b) :
    nulFree (a ++ b) := by
  unfold nulFree at *
  rw [str_data_append]
  intro h
  rcases List.mem_append.mp h with h | h
  · exact ha h
  · exact hb h

theorem utf8EncodeChar_lt_256 (c : Char) : ∀ x ∈ utf8EncodeChar c, x < 256 := by
  intro x hx
  have hvalid := char_toNat_valid c
  simp only [utf8EncodeChar] at hx
  split at hx
  · simp at hx; omega
  · split at hx
    · simp at hx
      rcases hx with h | h <;> omega
    · split at hx
      · simp at hx
        rcases hx with h | h | h <;> omega
      · simp at hx
        rcases hx with h | h | h | h <;> omega

theorem textToBytes_lt_256 (text : String) : ∀ b ∈ textToBytes text, b < 256 := by
  intro b hb
  unfold textToBytes at hb
  rw [List.mem_flatMap] at hb
  obtain ⟨c, _, hc⟩ := hb
  exact utf8EncodeChar_lt_256 c b hc

theorem textToByteTokens_nulFree (text : String) :
    ∀ t ∈ textToByteTokens text, nulFree t := by
  intro t ht
  unfold textToByteTokens at ht
  rw [List.mem_map] at ht
  obtain ⟨b, hb, rfl⟩ := ht
  exact nulFree_renderByte (textToBytes_lt_256 text b hb)

/-! ## Lemmas: the training loop -/

theorem trainLoop_zero (vocab : Vocabulary) (merges : List (String × String × String))
    (steps : List MergeStep) (stepNum : Nat) (tokens : List String) (target : Nat) :
    trainLoop 0 vocab merges steps stepNum tokens target = none := rfl

theorem trainLoop_succ (fuel : Nat) (vocab : Vocabulary)
    (merges : List (String × String × String)) (steps : List MergeStep)
    (stepNum : Nat) (tokens : List String) (target : Nat) :
    trainLoop (fuel + 1) vocab merges steps stepNum tokens target =
      if vocab.size < target then
        match getMostFrequentPair (countPairs tokens) with
        | none => some ⟨vocab, merges, steps⟩
        | some (t1, t2, count) =>
          trainLoop fuel ((vocab.addToken (t1 ++ t2)).1)
            (merges ++ [(t1, t2, t1 ++ t2)])
            (steps ++ [⟨stepNum + 1, (t1, t2), t1 ++ t2, count,
              ((vocab.addToken (t1 ++ t2)).1).size,
              mergePairs tokens t1 t2 (t1 ++ t2)⟩])
            (stepNum + 1) (mergePairs tokens t1 t2 (t1 ++ t2)) target
      else some ⟨vocab, merges, steps⟩ := rfl

/-- The training loop reaches a terminal state within `tokens.length + 1`
iterations: every continuing iteration merges a pair that really occurs and
therefore strictly shortens the token sequence. -/
theorem trainLoop_total :
    ∀ (fuel : Nat) (vocab : Vocabulary) (merges : List (String × String × String))
      (steps : List MergeStep) (stepNum : Nat) (tokens : List String) (target : Nat),
      (∀ t ∈ tokens, nulFree t) → tokens.length < fuel →
      (trainLoop fuel vocab merges steps stepNum tokens target).isSome := by
  intro fuel
  induction fuel with
  | zero => intro _ _ _ _ tokens _ _ h; omega
  | succ fuel ih =>
    intro vocab merges steps stepNum tokens target hfree hlen
    rw [trainLoop_succ]
    by_cases htar : vocab.size < target
    · rw [if_pos htar]
      cases hgm : getMostFrequentPair (countPairs tokens) with
      | none => simp
      | some r =>
        obtain ⟨t1, t2, count⟩ := r
        have hadj : (t1, t2) ∈ tokens.zip tokens.tail :=
          selected_pair_adjacent hfree hgm
        have ht1 : nulFree t1 := hfree _ (List.of_mem_zip hadj).1
        have ht2 : nulFree t2 := by
          apply hfree
          have := (List.of_mem_zip hadj).2
          cases tokens with
          | nil => simp at this
          | cons a rest => exact List.mem_cons_of_mem _ this
        have hlt := mergePairs_length_lt t1 t2 (t1 ++ t2) tokens hadj
        apply ih
        · intro t ht
          rcases mergePairs_mem t1 t2 (t1 ++ t2) tokens t ht with h | rfl
          · exact hfree _ h
          · exact nulFree_append ht1 ht2
        · omega
    · rw [if_neg htar]; simp

/-- All tokens remain NUL-free through the loop (needed to keep applying
`selected_pair_adjacent`); packaged with totality above. -/
theorem trainLoop_merges_concat :
    ∀ (fuel : Nat) (vocab : Vocabulary) (merges : List (String × String × String))
      (steps : List MergeStep) (stepNum : Nat) (tokens : List String) (target : Nat)
      (r : TrainingResult),
      trainLoop fuel vocab merges steps stepNum tokens target = some r →
      (∀ e ∈ merges, e.2.2 = e.1 ++ e.2.1) →
      ∀ e ∈ r.merges, e.2.2 = e.1 ++ e.2.1 := by
  intro fuel
  induction fuel with
  | zero => intro _ _ _ _ _ _ r h; rw [trainLoop_zero] at h; exact absurd h (by simp)
  | succ fuel ih =>
    intro vocab merges steps stepNum tokens target r hr hm
    rw [trainLoop_succ] at hr
    by_cases htar : vocab.size < target
    · rw [if_pos htar] at hr
      cases hgm : getMostFrequentPair (countPairs tokens) with
      | none =>
        rw [hgm] at hr
        simp at hr
        rw [← hr]
        exact hm
      | some rr =>
        obtain ⟨t1, t2, count⟩ := rr
        rw [hgm] at hr
        apply ih _ _ _ _ _ _ _ hr
        intro e he
        rcases List.mem_append.mp he with h | h
        · exact hm e h
        · simp at h
          rw [h]
    · rw [if_neg htar] at hr
      simp at hr
      rw [← hr]
      exact hm

theorem list_get?_append_left {α : Type} {l : List α} {i : Nat} {t : α}
    (h : l.get? i = some t) (l' : List α) : (l ++ l').get? i = some t := by
  have hi : i < l.length := by
    by_contra hge
    rw [List.get?_eq_none.mpr (by omega)] at h
    exact Option.noConfusion h
  rw [List.get?_append hi]
  exact h

theorem addToken_getToken_preserved {v : Vocabulary} {id : Nat} {t : String}
    (h : v.getToken id = some t) (t' : String) :
    ((v.addToken t').1).getToken id = some t := by
  unfold Vocabulary.getToken at *
  rw [addToken_tokens]
  split
  · exact h
  · exact list_get?_append_left h _

theorem addToken_getId_preserved {v : Vocabulary} {t : String} {i : Nat}
    (h : v.getId t = some i) (t' : String) :
    ((v.addToken t').1).getId t = some i := by
  unfold Vocabulary.getId at *
  rw [addToken_tokens]
  split
  · exact h
  · exact idxOfStr_append_left h _

theorem trainLoop_getToken_preserved :
    ∀ (fuel : Nat) (vocab : Vocabulary) (merges : List (String × String × String))
      (steps : List MergeStep) (stepNum : Nat) (tokens : List String) (target : Nat)
      (r : TrainingResult),
      trainLoop fuel vocab merges steps stepNum tokens target = some r →
      ∀ id t, vocab.getToken id = some t → r.vocab.getToken id = some t := by
  intro fuel
  induction fuel with
  | zero => intro _ _ _ _ _ _ r h; rw [trainLoop_zero] at h; exact absurd h (by simp)
  | succ fuel ih =>
    intro vocab merges steps stepNum tokens target r hr id t hv
    rw [trainLoop_succ] at hr
    by_cases htar : vocab.size < target
    · rw [if_pos htar] at hr
      cases hgm : getMostFrequentPair (countPairs tokens) with
      | none =>
        rw [hgm] at hr
        simp at hr
        rw [← hr]
        exact hv
      | some rr =>
        obtain ⟨t1, t2, count⟩ := rr
        rw [hgm] at hr
        exact ih _ _ _ _ _ _ _ hr id t (addToken_getToken_preserved hv _)
    · rw [if_neg htar] at hr
      simp at hr
      rw [← hr]
      exact hv

theorem trainLoop_getId_preserved :
    ∀ (fuel : Nat) (vocab : Vocabulary) (merges : List (String × String × String))
      (steps : List MergeStep) (stepNum : Nat) (tokens : List String) (target : Nat)
      (r : TrainingResult),
      trainLoop fuel vocab merges steps stepNum tokens target = some r →
      ∀ t i, vocab.getId t = some i → r.vocab.getId t = some i := by
  intro fuel
  induction fuel with
  | zero => intro _ _ _ _ _ _ r h; rw [trainLoop_zero] at h; exact absurd h (by simp)
  | succ fuel ih =>
    intro vocab merges steps stepNum tokens target r hr t i hv
    rw [trainLoop_succ] at hr
    by_cases htar : vocab.size < target
    · rw [if_pos htar] at hr
      cases hgm : getMostFrequentPair (countPairs tokens) with
      | none =>
        rw [hgm] at hr
        simp at hr
        rw [← hr]
        exact hv
      | some rr =>
        obtain ⟨t1, t2, count⟩ := rr
        rw [hgm] at hr
        exact ih _ _ _ _ _ _ _ hr t i (addToken_getId_preserved hv _)
    · rw [if_neg htar] at hr
      simp at hr
      rw [← hr]
      exact hv

/-- Step records accumulate with vocabulary sizes that never decrease and
never jump by more than 1. -/
theorem trainLoop_steps_chain :
    ∀ (fuel : Nat) (vocab : Vocabulary) (merges : List (String × String × String))
      (steps : List MergeStep) (stepNum : Nat) (tokens : List String) (target : Nat)
      (r : TrainingResult),
      trainLoop fuel vocab merges steps stepNum tokens target = some r →
      ∃ newSteps, r.steps = steps ++ newSteps ∧
        List.Chain' (fun a b => a ≤ b ∧ b ≤ a + 1)
          (vocab.size :: newSteps.map (·.vocabSize)) := by
  intro fuel
  induction fuel with
  | zero => intro _ _ _ _ _ _ r h; rw [trainLoop_zero] at h; exact absurd h (by simp)
  | succ fuel ih =>
    intro vocab merges steps stepNum tokens target r hr
    rw [trainLoop_succ] at hr
    by_cases htar : vocab.size < target
    · rw [if_pos htar] at hr
      cases hgm : getMostFrequentPair (countPairs tokens) with
      | none =>
        rw [hgm] at hr
        simp at hr
        exact ⟨[], by rw [← hr]; simp, by simp⟩
      | some rr =>
        obtain ⟨t1, t2, count⟩ := rr
        rw [hgm] at hr
        obtain ⟨ns, hsteps, hchain⟩ := ih _ _ _ _ _ _ _ hr
        refine ⟨(⟨stepNum + 1, (t1, t2), t1 ++ t2, count,
            ((vocab.addToken (t1 ++ t2)).1).size,
            mergePairs tokens t1 t2 (t1 ++ t2)⟩ : MergeStep) :: ns, ?_, ?_⟩
        · rw [hsteps]; simp
        · rw [List.map_cons, List.chain'_cons]
          constructor
          · exact addToken_size_le vocab (t1 ++ t2)
          · exact hchain
    · rw [if_neg htar] at hr
      simp at hr
      exact ⟨[], by rw [← hr]; simp, by simp⟩

/-! ## Lemmas: last element through a merge pass -/

theorem getLast?_cons_of_ne_nil {α : Type} {l : List α} (h : l ≠ []) (a : α) :
    (a :: l).getLast? = l.getLast? := by
  cases l with
  | nil => exact absurd rfl h
  | cons b rest => exact List.getLast?_cons_cons

theorem mergePairs_getLast? (t1 t2 m : String) :
    ∀ ts : List String,
      (mergePairs ts t1 t2 m).getLast? = ts.getLast? ∨
      (mergePairs ts t1 t2 m).getLast? = some m := by
  apply twoStepInduction
  · left; rfl
  · intro a; rw [mergePairs_one']; left; rfl
  · intro a b rest ih1 ih2
    rw [mergePairs_cons₂]
    split
    · cases hrest : rest with
      | nil =>
        right
        rw [mergePairs_nil]
        rfl
      | cons c rest₂ =>
        have hne : mergePairs (c :: rest₂) t1 t2 m ≠ [] :=
          mergePairs_ne_nil (by simp) _ _ _
        rw [getLast?_cons_of_ne_nil hne]
        rw [hrest] at ih1
        rcases ih1 with h | h
        · left
          rw [h]
          simp
        · right; exact h
    · have hne : mergePairs (b :: rest) t1 t2 m ≠ [] :=
        mergePairs_ne_nil (by simp) _ _ _
      rw [getLast?_cons_of_ne_nil hne]
      rcases ih2 with h | h
      · left
        rw [h, List.getLast?_cons_cons]
      · right; exact h

/-! ## Lemmas: byte-token IDs in the initialized vocabulary -/

theorem initVocab_size : (initializeByteVocab ⟨[]⟩).size = 256 := by
  unfold Vocabulary.size
  rw [initializeByteVocab_tokens]
  simp

theorem initVocab_getToken {b : Nat} (hb : b < 256) :
    (initializeByteVocab ⟨[]⟩).getToken b = some (renderByte b) := by
  unfold Vocabulary.getToken
  rw [initializeByteVocab_tokens]
  rw [List.get?_map, List.get?_range hb]
  rfl

theorem initVocab_getId {b : Nat} (hb : b < 256) :
    (initializeByteVocab ⟨[]⟩).getId (renderByte b) = some b := by
  unfold Vocabulary.getId
  rw [initializeByteVocab_tokens]
  apply idxOfStr_of_get?
  · rw [List.get?_map, List.get?_range hb]
    rfl
  · intro j hj hbad
    have hjb : j < 256 := by omega
    rw [List.get?_map, List.get?_range hjb] at hbad
    simp at hbad
    have := renderByte_inj hjb hb hbad
    omega

/-! ## Lemmas: decode paths -/

theorem decodeTokens_ok {v : Vocabulary} :
    ∀ {ids : List Nat}, (∀ i ∈ ids, i < v.size) →
      ∃ ts, decodeTokens v ids = .ok ts := by
  intro ids
  induction ids with
  | nil => intro _; exact ⟨[], rfl⟩
  | cons id rest ih =>
    intro h
    have hid : id < v.size := h id (List.mem_cons_self _ _)
    have hget : v.getToken id = some (v.tokens.get ⟨id, hid⟩) :=
      List.get?_eq_get hid
    obtain ⟨ts, hts⟩ := ih (fun i hi => h i (List.mem_cons_of_mem _ hi))
    refine ⟨v.tokens.get ⟨id, hid⟩ :: ts, ?_⟩
    rw [decodeTokens, hget, hts]

theorem decodeTokens_error {v : Vocabulary} :
    ∀ {ids : List Nat}, (∃ i ∈ ids, v.size ≤ i) →
      ∃ e, decodeTokens v ids = .error e := by
  intro ids
  induction ids with
  | nil => rintro ⟨i, hi, -⟩; simp at hi
  | cons id rest ih =>
    rintro ⟨i, hi, hsize⟩
    by_cases hid : id < v.size
    · have hget : v.getToken id = some (v.tokens.get ⟨id, hid⟩) :=
        List.get?_eq_get hid
      have hrest : ∃ i ∈ rest, v.size ≤ i := by
        rcases List.mem_cons.mp hi with rfl | hmem
        · omega
        · exact ⟨i, hmem, hsize⟩
      obtain ⟨e, he⟩ := ih hrest
      refine ⟨e, ?_⟩
      rw [decodeTokens, hget, he]
    · have hget : v.getToken id = none := by
        unfold Vocabulary.getToken
        rw [List.get?_eq_none]
        unfold Vocabulary.size at hid
        omega
      refine ⟨"ID " ++ toString id ++ " not found in vocabulary", ?_⟩
      rw [decodeTokens, hget]

/-- The ID → token → ID round trip inside one vocabulary. -/
theorem getId_getToken {v : Vocabulary} {t : String} {i : Nat}
    (h : v.getId t = some i) : v.getToken i = some t :=
  idxOfStr_get? h

theorem decodeTokens_of_encodeIds {v : Vocabulary} :
    ∀ {ts : List String} {ids : List Nat},
      encodeIds v ts = .ok ids → decodeTokens v ids = .ok ts := by
  intro ts
  induction ts with
  | nil =>
    intro ids h
    rw [encodeIds] at h
    cases h
    rfl
  | cons t rest ih =>
    intro ids h
    rw [encodeIds] at h
    cases hget : v.getId t with
    | none => rw [hget] at h; exact absurd h (by simp)
    | some id =>
      rw [hget] at h
      cases hrest : encodeIds v rest with
      | error e => rw [hrest] at h; exact absurd h (by simp)
      | ok ids' =>
        rw [hrest] at h
        cases h
        rw [decodeTokens, getId_getToken hget, ih hrest]

/-! ## Supporting equations for the trainer interface -/

theorem trainBPE_eq_loop (text : String) (targetVocabSize : Nat) :
    trainBPE text targetVocabSize =
      (trainLoop ((textToByteTokens text).length + 1) (initializeByteVocab ⟨[]⟩)
        [] [] 0 (textToByteTokens text) targetVocabSize).getD emptyResult := rfl

/-- C5 (supporting form): the training loop reaches a terminal state within
`|byte tokens| + 1` iterations, and `trainBPE` returns that state. -/
theorem trainBPE_terminates (text : String) (targetVocabSize : Nat) :
    ∃ r : TrainingResult,
      trainLoop ((textToByteTokens text).length + 1) (initializeByteVocab ⟨[]⟩)
        [] [] 0 (textToByteTokens text) targetVocabSize = some r ∧
      trainBPE text targetVocabSize = r := by
  have h := trainLoop_total ((textToByteTokens text).length + 1)
    (initializeByteVocab ⟨[]⟩) [] [] 0 (textToByteTokens text) targetVocabSize
    (textToByteTokens_nulFree text) (by omega)
  obtain ⟨r, hr⟩ := Option.isSome_iff_exists.mp h
  refine ⟨r, hr, ?_⟩
  rw [trainBPE_eq_loop, hr]
  rfl

theorem getId_isSome_iff {v : Vocabulary} {t : String} :
    (v.getId t).isSome ↔ t ∈ v.tokens := by
  unfold Vocabulary.getId
  rw [Option.isSome_iff_ne_none]
  constructor
  · intro h
    by_contra hmem
    exact h (idxOfStr_eq_none.mpr hmem)
  · intro hmem hnone
    exact (idxOfStr_eq_none.mp hnone) hmem

theorem addToken_size_iff (v : Vocabulary) (t : String) :
    ((v.addToken t).1).size = if (v.getId t).isSome then v.size else v.size + 1 := by
  rw [addToken_size_eq]
  by_cases h : t ∈ v.tokens
  · rw [if_pos h, if_pos (getId_isSome_iff.mpr h)]
  · rw [if_neg h, if_neg (fun hs => h (getId_isSome_iff.mp hs))]

theorem trainLoop_none_pair {vocab : Vocabulary}
    {merges : List (String × String × String)} {steps : List MergeStep}
    {stepNum : Nat} {tokens : List String} {target : Nat} {res : TrainingResult}
    (fuel : Nat) (h : getMostFrequentPair (countPairs tokens) = none)
    (hr : trainLoop (fuel + 1) vocab merges steps stepNum tokens target = some res) :
    res.merges = merges ∧ res.steps = steps ∧ res.vocab = vocab := by
  rw [trainLoop_succ] at hr
  by_cases htar : vocab.size < target
  · rw [if_pos htar, h] at hr
    cases hr
    exact ⟨rfl, rfl, rfl⟩
  · rw [if_neg htar] at hr
    cases hr
    exact ⟨rfl, rfl, rfl⟩

/-! ## Claim theorems (first group) -/

/-- C2: `mergePairs` (the source loop, modelled verbatim as `mergePairsIdx`
started at 0) scans left to right; whenever the current and next token
exactly equal `left` and `right` it emits `merged` and advances two
positions, otherwise it emits the current token and advances one; matches
are non-overlapping and left-biased, so `["a","a","a"]` with pair
`("a","a")` merges to `["aa","a"]`, not `["a","aa"]`. -/
theorem mergePairs_scan_contract (t1 t2 m : String) :
    (∀ (a b : String) (rest : List String),
        mergePairsIdx (a :: b :: rest) t1 t2 m 0 =
          if a = t1 ∧ b = t2 then m :: mergePairsIdx rest t1 t2 m 0
          else a :: mergePairsIdx (b :: rest) t1 t2 m 0) ∧
    mergePairsIdx ["a", "a", "a"] "a" "a" "aa" 0 = ["aa", "a"] ∧
    mergePairsIdx ["a", "a", "a"] "a" "a" "aa" 0 ≠ ["a", "aa"] := by
  refine ⟨?_, ?_, ?_⟩
  · intro a b rest
    rw [mergePairsIdx_eq, mergePairsIdx_eq, mergePairsIdx_eq, mergePairs_cons₂]
    by_cases h : a = t1 ∧ b = t2
    · rw [if_pos ⟨h.1, congrArg some h.2⟩, if_pos h]
    · rw [if_neg (fun hc => h ⟨hc.1, Option.some.inj hc.2⟩), if_neg h]
  · rw [mergePairsIdx_eq]
    rfl
  · rw [mergePairsIdx_eq]
    decide

/-- C10: the source loop of `mergePairs` is total — the out-of-range access
`tokens[i+1]` (modelled as `none`) never equals the right token, so the loop
equals the structural recursion; consequently the last token is emitted
unchanged unless it was consumed as the second element of a matched pair
(in which case the output ends with the merged token). -/
theorem mergePairs_total_safe (tokens : List String) (t1 t2 merged : String) :
    mergePairsIdx tokens t1 t2 merged 0 = mergePairs tokens t1 t2 merged ∧
    ((mergePairs tokens t1 t2 merged).getLast? = tokens.getLast? ∨
      (mergePairs tokens t1 t2 merged).getLast? = some merged) :=
  ⟨mergePairsIdx_eq tokens t1 t2 merged, mergePairs_getLast? t1 t2 merged tokens⟩

/-- C5: `trainBPE` terminates for every input text and every target size:
the training loop reaches a terminal state within `|byte tokens| + 1`
iterations (every continuing iteration merges an actually-occurring pair
and so strictly shortens the token sequence; a sequence shorter than 2
yields no pair and ends the loop), and `trainBPE` returns that terminal
state. -/
theorem trainBPE_total (text : String) (targetVocabSize : Nat) :
    ∃ r : TrainingResult,
      trainLoop ((textToByteTokens text).length + 1) (initializeByteVocab ⟨[]⟩)
        [] [] 0 (textToByteTokens text) targetVocabSize = some r ∧
      trainBPE text targetVocabSize = r :=
  trainBPE_terminates text targetVocabSize

/-- C6: after training, the vocabulary contains all 256 canonical byte
tokens with IDs 0–255, for every text and every target size. -/
theorem trainBPE_byte_coverage (text : String) (targetVocabSize b : Nat)
    (hb : b < 256) :
    (trainBPE text targetVocabSize).vocab.getToken b = some (renderByte b) ∧
    (trainBPE text targetVocabSize).vocab.getId (renderByte b) = some b := by
  obtain ⟨r, hr, hbpe⟩ := trainBPE_terminates text targetVocabSize
  rw [hbpe]
  exact ⟨trainLoop_getToken_preserved _ _ _ _ _ _ _ _ hr b _ (initVocab_getToken hb),
    trainLoop_getId_preserved _ _ _ _ _ _ _ _ hr _ b (initVocab_getId hb)⟩

theorem trainBPE_byte_coverage_witness :
    (10 : Nat) < 256 ∧
    (trainBPE "ab" 300).vocab.getToken 10 = some (renderByte 10) ∧
    (trainBPE "ab" 300).vocab.getId (renderByte 10) = some 10 :=
  ⟨by decide, (trainBPE_byte_coverage "ab" 300 10 (by decide)).1,
    (trainBPE_byte_coverage "ab" 300 10 (by decide)).2⟩

/-- C9: `decode` fails exactly when some ID is unregistered (IDs are dense,
`[0, size)`): an all-registered list decodes without error, any
out-of-range ID raises, and in particular `decode [99999]` raises whenever
`99999 ≥ size`. -/
theorem decode_error_iff (ids : List Nat) (v : Vocabulary) :
    ((∀ i ∈ ids, i < v.size) → ∃ s, decode ids v = Except.ok s) ∧
    ((∃ i ∈ ids, v.size ≤ i) → ∃ e, decode ids v = Except.error e) ∧
    (v.size ≤ 99999 → ∃ e, decode [99999] v = Except.error e) := by
  refine ⟨?_, ?_, ?_⟩
  · intro h
    obtain ⟨ts, hts⟩ := decodeTokens_ok h
    refine ⟨bytesToText (ts.flatMap tokenToBytes), ?_⟩
    rw [decode, hts]
  · intro h
    obtain ⟨e, he⟩ := decodeTokens_error h
    refine ⟨e, ?_⟩
    rw [decode, he]
  · intro h
    obtain ⟨e, he⟩ := decodeTokens_error ⟨99999, List.mem_cons_self _ _, h⟩
    refine ⟨e, ?_⟩
    rw [decode, he]

theorem decode_error_iff_witness :
    (∀ i ∈ ([0] : List Nat), i < (⟨["a"]⟩ : Vocabulary).size) ∧
    (∃ s, decode [0] ⟨["a"]⟩ = Except.ok s) ∧
    (⟨["a"]⟩ : Vocabulary).size ≤ 99999 ∧
    (∃ e, decode [99999] ⟨["a"]⟩ = Except.error e) :=
  ⟨by decide, (decode_error_iff [0] ⟨["a"]⟩).1 (by decide), by decide,
    (decode_error_iff [0] ⟨["a"]⟩).2.2 (by decide)⟩

/-- C3 (amended): across training steps the vocabulary size never decreases
and never grows by more than 1 per merge step; it grows by exactly 1
exactly when the merged token is not already registered (`addToken` is
idempotent), which can fail to hold (see the counterexample). -/
theorem trainBPE_vocab_monotone (text : String) (targetVocabSize : Nat) :
    List.Chain' (fun a b => a ≤ b ∧ b ≤ a + 1)
      (256 :: (trainBPE text targetVocabSize).steps.map (·.vocabSize)) ∧
    (∀ (v : Vocabulary) (t : String),
      ((v.addToken t).1).size =
        if (v.getId t).isSome then v.size else v.size + 1) := by
  constructor
  · obtain ⟨r, hr, hbpe⟩ := trainBPE_terminates text targetVocabSize
    obtain ⟨ns, hsteps, hchain⟩ := trainLoop_steps_chain _ _ _ _ _ _ _ _ hr
    rw [hbpe, hsteps]
    simp only [List.nil_append]
    rw [initVocab_size] at hchain
    exact hchain
  · exact addToken_size_iff

/-- C8 (amended): when the byte-token sequence has fewer than 2 tokens
(empty or single-byte text) there is no adjacent pair at all, and training
terminates immediately: empty merge table, no steps, vocabulary size
exactly 256.  (For longer texts without *repeated* pairs the claim fails:
the trainer happily merges a pair of count 1 — see the counterexample.) -/
theorem trainBPE_trivial (text : String) (targetVocabSize : Nat)
    (h : (textToByteTokens text).length < 2) :
    (trainBPE text targetVocabSize).merges = [] ∧
    (trainBPE text targetVocabSize).steps = [] ∧
    (trainBPE text targetVocabSize).vocab.size = 256 := by
  have hgm : getMostFrequentPair (countPairs (textToByteTokens text)) = none := by
    rw [countPairs_short h]
    rfl
  obtain ⟨r, hr, hbpe⟩ := trainBPE_terminates text targetVocabSize
  obtain ⟨hm, hs, hv⟩ := trainLoop_none_pair _ hgm hr
  rw [hbpe]
  refine ⟨hm, hs, ?_⟩
  rw [hv]
  exact initVocab_size

theorem trainBPE_trivial_witness :
    (textToByteTokens "a").length < 2 ∧
    (trainBPE "a" 300).merges = [] ∧
    (trainBPE "a" 300).steps = [] ∧
    (trainBPE "a" 300).vocab.size = 256 :=
  ⟨by decide, (trainBPE_trivial "a" 300 (by decide)).1,
    (trainBPE_trivial "a" 300 (by decide)).2.1,
    (trainBPE_trivial "a" 300 (by decide)).2.2⟩

theorem keyCnt_eq_countAdj {ts : List String} {a : String} (b : String)
    (hts : ∀ t ∈ ts, nulFree t) (ha : nulFree a) :
    keyCnt (ts.zip ts.tail) (pairKey a b) = countAdj ts a b := by
  unfold keyCnt countAdj
  congr 1
  apply List.filter_congr
  intro p hp
  simp only [decide_eq_decide]
  constructor
  · intro h
    exact pairKey_inj (hts _ (List.of_mem_zip hp).1) ha h
  · rintro ⟨h1, h2⟩
    rw [h1, h2]

/-- C7 (amended): `countPairs` maps each adjacent ordered pair to its
occurrence count via the NUL-joined key; a sequence shorter than 2 yields
the empty table; and for NUL-free tokens (which includes every token this
engine produces) distinct ordered pairs never collide — in particular
`("a","bc")` and `("ab","c")` get distinct keys.  (Tokens containing NUL
can collide — see the counterexample.) -/
theorem countPairs_correct :
    (∀ ts : List String, ts.length < 2 → countPairs ts = []) ∧
    (∀ (ts : List String) (a b : String),
      (∀ t ∈ ts, nulFree t) → nulFree a → nulFree b →
      mapGet (countPairs ts) (pairKey a b) =
        if countAdj ts a b = 0 then none else some (countAdj ts a b)) ∧
    pairKey "a" "bc" ≠ pairKey "ab" "c" := by
  refine ⟨fun ts h => countPairs_short h, ?_, by decide⟩
  intro ts a b hts ha hb
  rw [countPairs_get, keyCnt_eq_countAdj b hts ha]

theorem countPairs_correct_witness :
    (∀ t ∈ (["a", "b", "a", "b"] : List String), nulFree t) ∧
    nulFree "a" ∧ nulFree "b" ∧
    mapGet (countPairs ["a", "b", "a", "b"]) (pairKey "a" "b") =
      if countAdj ["a", "b", "a", "b"] "a" "b" = 0 then none
      else some (countAdj ["a", "b", "a", "b"] "a" "b") :=
  ⟨by decide, by decide, by decide,
    countPairs_correct.2.1 ["a", "b", "a", "b"] "a" "b"
      (by decide) (by decide) (by decide)⟩

/-! ## Counterexample computations

`initializeByteVocab ⟨[]⟩` is rewritten to its explicit value (proved
structurally above) before kernel evaluation, so the `decide` calls below
only evaluate the interesting part of the pipeline. -/

theorem vocab_ext {v w : Vocabulary} (h : v.tokens = w.tokens) : v = w := by
  cases v; cases w; cases h; rfl

theorem initializeByteVocab_eq :
    initializeByteVocab ⟨[]⟩ = ⟨(List.range 256).map renderByte⟩ :=
  vocab_ext initializeByteVocab_tokens

/-- C3 counterexample: training on the text `"<0x00><0x00>"` (twelve
printable characters) merges `"<0x00"` and `">"` at step 5 into the token
`"<0x00>"`, which is already registered as the byte-0 escape token, so the
vocabulary size stalls at 260 instead of growing by exactly 1 on every
merge step. -/
theorem trainBPE_vocab_stall :
    (trainBPE "<0x00><0x00>" 261).steps.map (·.vocabSize)
      = [257, 258, 259, 260, 260, 261] ∧
    ((trainBPE "<0x00><0x00>" 261).steps.map (·.vocabSize)).get? 3
      = ((trainBPE "<0x00><0x00>" 261).steps.map (·.vocabSize)).get? 4 := by
  have h : (trainBPE "<0x00><0x00>" 261).steps.map (·.vocabSize)
      = [257, 258, 259, 260, 260, 261] := by
    rw [trainBPE_eq_loop, initializeByteVocab_eq]
    decide
  refine ⟨h, ?_⟩
  rw [h]
  rfl

/-- C8 counterexample: the text `"ab"` has no repeated adjacent pair (every
count is 1), yet training with head-room merges the count-1 pair
`("a","b")`: the merge table is not empty and the vocabulary grows to 257. -/
theorem trainBPE_trivial_ce :
    (∀ kv ∈ countPairs (textToByteTokens "ab"), kv.2 ≤ 1) ∧
    (trainBPE "ab" 258).merges = [("a", "b", "ab")] ∧
    (trainBPE "ab" 258).merges ≠ [] ∧
    (trainBPE "ab" 258).vocab.size = 257 := by
  have hm : (trainBPE "ab" 258).merges = [("a", "b", "ab")] := by
    rw [trainBPE_eq_loop, initializeByteVocab_eq]
    decide
  have hs : (trainBPE "ab" 258).vocab.size = 257 := by
    rw [trainBPE_eq_loop, initializeByteVocab_eq]
    decide
  exact ⟨by decide, hm, by rw [hm]; decide, hs⟩

/-- C7 counterexample: with the NUL-joined string key, the two distinct
ordered pairs `("a\u0000", "b")` and `("a", "\u0000b")` share one key: two
different sequences yield identical count tables, inside one sequence the
two pairs pool into a single count of 2 (though each occurs once), and
`getMostFrequentPair` even reports the pair `("a", "")`, which occurs
nowhere. -/
theorem countPairs_collision_ce :
    countPairs ["a\u0000", "b"] = countPairs ["a", "\u0000b"] ∧
    (("a\u0000", "b") : String × String) ≠ ("a", "\u0000b") ∧
    getMostFrequentPair (countPairs ["a\u0000", "b"]) = some ("a", "", 1) ∧
    mapGet (countPairs ["a\u0000", "b", "x", "a", "\u0000b"])
      (pairKey "a\u0000" "b") = some 2 ∧
    countAdj ["a\u0000", "b", "x", "a", "\u0000b"] "a\u0000" "b" = 1 := by
  refine ⟨by decide, by decide, by decide, by decide, by decide⟩

/-- C4 counterexample: the scanner does not validate the two middle
characters as hex digits: `"<0xzz>"` is consumed as a single escaped byte
(whose `parseInt` value is NaN, modelled `none`), not as six literal
characters. -/
theorem tokenToBytes_hex_ce :
    tokenToBytes "<0xzz>" = [none] ∧
    tokenToBytes "<0xzz>" ≠
      [some 60, some 48, some 120, some 122, some 122, some 62] := by
  refine ⟨by decide, by decide⟩

/-- C1 counterexample: training on `"<0x41><0x41>"` (whose bytes cover those
of `"<0x41>"`) learns the token `"<0x41>"` from six literal printable
characters; `encode "<0x41>"` succeeds with ID 260, but `decode` reads the
token as an escaped byte and returns `"A"`: the round trip fails. -/
theorem roundtrip_ce :
    (∀ b ∈ textToBytes "<0x41>", b ∈ textToBytes "<0x41><0x41>") ∧
    encode "<0x41>" (trainBPE "<0x41><0x41>" 261).vocab
      (trainBPE "<0x41><0x41>" 261).merges = Except.ok [260] ∧
    decode [260] (trainBPE "<0x41><0x41>" 261).vocab = Except.ok "A" ∧
    ("A" : String) ≠ "<0x41>" := by
  have henc : encode "<0x41>" (trainBPE "<0x41><0x41>" 261).vocab
      (trainBPE "<0x41><0x41>" 261).merges = Except.ok [260] := by
    rw [trainBPE_eq_loop, initializeByteVocab_eq]
    decide
  have hdec : decode [260] (trainBPE "<0x41><0x41>" 261).vocab
      = Except.ok "A" := by
    rw [trainBPE_eq_loop, initializeByteVocab_eq]
    decide
  exact ⟨by decide, henc, hdec, by decide⟩

/-! ## Lemmas: the token byte scanner -/

theorem hexDigitVal_hexChar : ∀ d : Nat, d < 16 → hexDigitVal (hexChar d) = some d := by
  decide

theorem jsParseIntHex2_hex {c4 c5 : Char} {v4 v5 : Nat}
    (h4 : hexDigitVal c4 = some v4) (h5 : hexDigitVal c5 = some v5) :
    jsParseIntHex2 c4 c5 = some (v4 * 16 + v5) := by
  have hcx : ¬(v4 = 0 ∧ (c5 = 'x' ∨ c5 = 'X')) := by
    rintro ⟨-, hx | hx⟩ <;> rw [hx] at h5 <;>
      exact Option.noConfusion ((by decide : hexDigitVal 'x' = none) ▸
        (by decide : hexDigitVal 'X' = none) ▸ h5)
  unfold jsParseIntHex2
  rw [h4]
  simp only [if_neg hcx, h5]

theorem tokenToBytesL_renderByte {b : Nat} (hb : b < 256) :
    tokenToBytesL (renderByte b).data = [some b] := by
  unfold renderByte
  by_cases hp : 32 ≤ b ∧ b < 127
  · rw [if_pos hp]
    rw [tokenToBytesL.eq_2 _ _ (fun c4 c5 r hc hr => absurd hr (by simp))]
    rw [toNat_charOfNat_small (by omega), tokenToBytesL.eq_3]
  · rw [if_neg hp]
    rw [show (String.mk ['<', '0', 'x', hexChar (b / 16), hexChar (b % 16), '>']).data
        = ['<', '0', 'x', hexChar (b / 16), hexChar (b % 16), '>'] from rfl]
    rw [tokenToBytesL.eq_1, tokenToBytesL.eq_3]
    rw [jsParseIntHex2_hex (hexDigitVal_hexChar _ (by omega))
      (hexDigitVal_hexChar _ (by omega))]
    have : b / 16 * 16 + b % 16 = b := by omega
    rw [this]

/-- C4 (amended): the scanner consumes a 6-character window as one escaped
byte exactly when it starts with `<0x` and has `>` at offset 5 — the middle
two characters are not validated; when they are hex digits the consumed
value is the hex byte value (so canonical byte tokens scan back to their
byte); otherwise it consumes one character and emits its code point. -/
theorem tokenToBytes_scan :
    (∀ t : String, tokenToBytes t = tokenToBytesL t.data) ∧
    (∀ (c4 c5 : Char) (rest : List Char),
      tokenToBytesL ('<' :: '0' :: 'x' :: c4 :: c5 :: '>' :: rest) =
        jsParseIntHex2 c4 c5 :: tokenToBytesL rest) ∧
    (∀ (c : Char) (rest : List Char),
      (∀ (c4 c5 : Char) (r : List Char),
        c :: rest ≠ '<' :: '0' :: 'x' :: c4 :: c5 :: '>' :: r) →
      tokenToBytesL (c :: rest) = some c.toNat :: tokenToBytesL rest) ∧
    (∀ (c4 c5 : Char) (v4 v5 : Nat),
      hexDigitVal c4 = some v4 → hexDigitVal c5 = some v5 →
      jsParseIntHex2 c4 c5 = some (v4 * 16 + v5)) ∧
    (∀ b : Nat, b < 256 → tokenToBytesL (renderByte b).data = [some b]) := by
  refine ⟨fun t => rfl, tokenToBytesL.eq_1, ?_, ?_, ?_⟩
  · intro c rest h
    exact tokenToBytesL.eq_2 c rest
      (fun c4 c5 r hc hr => h c4 c5 r (by rw [hc, hr]))
  · intro c4 c5 v4 v5 h4 h5
    exact jsParseIntHex2_hex h4 h5
  · intro b hb
    exact tokenToBytesL_renderByte hb

theorem tokenToBytes_scan_witness :
    (∀ (c4 c5 : Char) (r : List Char),
      ('a' :: ['b']) ≠ '<' :: '0' :: 'x' :: c4 :: c5 :: '>' :: r) ∧
    tokenToBytesL ['a', 'b'] = some ('a'.toNat) :: tokenToBytesL ['b'] ∧
    hexDigitVal '3' = some 3 ∧ hexDigitVal 'f' = some 15 ∧
    jsParseIntHex2 '3' 'f' = some (3 * 16 + 15) ∧
    (10 : Nat) < 256 ∧ tokenToBytesL (renderByte 10).data = [some 10] := by
  have hne : ∀ (c4 c5 : Char) (r : List Char),
      ('a' :: ['b']) ≠ '<' :: '0' :: 'x' :: c4 :: c5 :: '>' :: r := by
    intro c4 c5 r h
    exact absurd h (by simp)
  refine ⟨hne, tokenToBytes_scan.2.2.1 'a' ['b'] hne,
    by decide, by decide,
    tokenToBytes_scan.2.2.2.1 '3' 'f' 3 15 (by decide) (by decide),
    by decide,
    tokenToBytes_scan.2.2.2.2 10 (by decide)⟩

/-! ## Lemmas: UTF-8 round trip -/

theorem utf8Decode_ascii {b1 : Nat} (h : b1 < 0x80) (rest : List Nat) :
    utf8Decode (b1 :: rest) = Char.ofNat b1 :: utf8Decode rest := by
  match rest with
  | [] => rw [utf8Decode.eq_2, if_pos h]
  | [x] => rw [utf8Decode.eq_3, if_pos h]
  | [x, y] => rw [utf8Decode.eq_4, if_pos h]
  | x :: y :: z :: r => rw [utf8Decode.eq_5, if_pos h]

theorem utf8Decode_two {b1 b2 : Nat} (rest : List Nat) (h1 : 0xC2 ≤ b1)
    (h2 : b1 < 0xE0) (h3 : 0x80 ≤ b2) (h4 : b2 < 0xC0) :
    utf8Decode (b1 :: b2 :: rest) =
      Char.ofNat ((b1 - 0xC0) * 64 + (b2 - 0x80)) :: utf8Decode rest := by
  match rest with
  | [] =>
    rw [utf8Decode.eq_3, if_neg (by omega), if_neg (by omega), if_pos (by omega),
      if_pos ⟨h3, h4⟩]
  | [x] =>
    rw [utf8Decode.eq_4, if_neg (by omega), if_neg (by omega), if_pos (by omega),
      if_pos ⟨h3, h4⟩]
  | x :: y :: r =>
    rw [utf8Decode.eq_5, if_neg (by omega), if_neg (by omega), if_pos (by omega),
      if_pos ⟨h3, h4⟩]

theorem utf8Decode_three {b1 b2 b3 : Nat} (rest : List Nat) (h1 : 0xE0 ≤ b1)
    (h2 : b1 < 0xF0)
    (hb2 : (if b1 = 0xE0 then 0xA0 else 0x80) ≤ b2 ∧
      b2 < (if b1 = 0xED then 0xA0 else 0xC0))
    (h3 : 0x80 ≤ b3) (h4 : b3 < 0xC0) :
    utf8Decode (b1 :: b2 :: b3 :: rest) =
      Char.ofNat ((b1 - 0xE0) * 4096 + (b2 - 0x80) * 64 + (b3 - 0x80)) ::
        utf8Decode rest := by
  match rest with
  | [] =>
    rw [utf8Decode.eq_4, if_neg (by omega), if_neg (by omega), if_neg (by omega),
      if_pos (by omega), if_pos hb2, if_pos ⟨h3, h4⟩]
  | x :: r =>
    rw [utf8Decode.eq_5, if_neg (by omega), if_neg (by omega), if_neg (by omega),
      if_pos (by omega), if_pos hb2, if_pos ⟨h3, h4⟩]

theorem utf8Decode_four {b1 b2 b3 b4 : Nat} (rest : List Nat) (h1 : 0xF0 ≤ b1)
    (h2 : b1 < 0xF5)
    (hb2 : (if b1 = 0xF0 then 0x90 else 0x80) ≤ b2 ∧
      b2 < (if b1 = 0xF4 then 0x90 else 0xC0))
    (h3 : 0x80 ≤ b3) (h4 : b3 < 0xC0) (h5 : 0x80 ≤ b4) (h6 : b4 < 0xC0) :
    utf8Decode (b1 :: b2 :: b3 :: b4 :: rest) =
      Char.ofNat ((b1 - 0xF0) * 262144 + (b2 - 0x80) * 4096 + (b3 - 0x80) * 64
        + (b4 - 0x80)) :: utf8Decode rest := by
  rw [utf8Decode.eq_5, if_neg (by omega), if_neg (by omega), if_neg (by omega),
    if_neg (by omega), if_pos (by omega), if_pos hb2, if_pos ⟨h3, h4⟩,
    if_pos ⟨h5, h6⟩]

theorem utf8Decode_encodeChar (c : Char) (rest : List Nat) :
    utf8Decode (utf8EncodeChar c ++ rest) = c :: utf8Decode rest := by
  have hv := char_toNat_valid c
  simp only [utf8EncodeChar]
  by_cases h1 : c.toNat < 0x80
  · rw [if_pos h1, List.singleton_append, utf8Decode_ascii h1, Char.ofNat_toNat]
  · rw [if_neg h1]
    by_cases h2 : c.toNat < 0x800
    · rw [if_pos h2, List.cons_append, List.singleton_append,
        utf8Decode_two _ (by omega) (by omega) (by omega) (by omega)]
      have harith : (0xC0 + c.toNat / 64 - 0xC0) * 64 + (0x80 + c.toNat % 64 - 0x80)
          = c.toNat := by omega
      rw [harith, Char.ofNat_toNat]
    · rw [if_neg h2]
      by_cases h3 : c.toNat < 0x10000
      · rw [if_pos h3, List.cons_append, List.cons_append, List.singleton_append,
          utf8Decode_three _ (by omega) (by omega)
            (by split_ifs <;> omega) (by omega) (by omega)]
        have harith : (0xE0 + c.toNat / 4096 - 0xE0) * 4096
            + (0x80 + c.toNat / 64 % 64 - 0x80) * 64 + (0x80 + c.toNat % 64 - 0x80)
            = c.toNat := by omega
        rw [harith, Char.ofNat_toNat]
      · rw [if_neg h3, List.cons_append, List.cons_append, List.cons_append,
          List.singleton_append,
          utf8Decode_four _ (by omega) (by omega)
            (by split_ifs <;> omega) (by omega) (by omega) (by omega) (by omega)]
        have harith : (0xF0 + c.toNat / 262144 - 0xF0) * 262144
            + (0x80 + c.toNat / 4096 % 64 - 0x80) * 4096
            + (0x80 + c.toNat / 64 % 64 - 0x80) * 64 + (0x80 + c.toNat % 64 - 0x80)
            = c.toNat := by omega
        rw [harith, Char.ofNat_toNat]

theorem utf8Decode_flatMap :
    ∀ cs : List Char, utf8Decode (cs.flatMap utf8EncodeChar) = cs := by
  intro cs
  induction cs with
  | nil => rfl
  | cons c rest ih =>
    rw [List.flatMap_cons, utf8Decode_encodeChar, ih]

theorem utf8Decode_textToBytes (s : String) :
    utf8Decode (textToBytes s) = s.data :=
  utf8Decode_flatMap s.data

theorem bytesToText_encode (s : String) :
    bytesToText ((textToBytes s).map some) = s := by
  unfold bytesToText
  have hmap : ((textToBytes s).map some).map toUint8 = textToBytes s := by
    rw [List.map_map]
    have hcong : ∀ b ∈ textToBytes s, (toUint8 ∘ some) b = id b := by
      intro b hb
      simp only [Function.comp, toUint8, id]
      exact Nat.mod_eq_of_lt (textToBytes_lt_256 s b hb)
    rw [List.map_congr_left hcong, List.map_id]
  rw [hmap, utf8Decode_textToBytes]

/-! ## Lemmas: scanning a canonical rendering recovers the bytes -/

theorem renderByte_data_printable {b : Nat} (h : 32 ≤ b ∧ b < 127) :
    (renderByte b).data = [Char.ofNat b] := by
  unfold renderByte
  rw [if_pos h]

theorem renderByte_data_escape {b : Nat} (h : ¬(32 ≤ b ∧ b < 127)) :
    (renderByte b).data =
      ['<', '0', 'x', hexChar (b / 16), hexChar (b % 16), '>'] := by
  unfold renderByte
  rw [if_neg h]

theorem atomsOf_cons (b : Nat) (bs : List Nat) :
    atomsOf (b :: bs) = (renderByte b).data ++ atomsOf bs := by
  unfold atomsOf
  rw [List.flatMap_cons]

theorem atomsOf_append (xs ys : List Nat) :
    atomsOf (xs ++ ys) = atomsOf xs ++ atomsOf ys := by
  unfold atomsOf
  rw [List.flatMap_append]

theorem noLit0x_cons {b : Nat} {bs : List Nat} (h : noLit0x (b :: bs)) :
    noLit0x bs := by
  unfold noLit0x at *
  intro hinf
  apply h
  obtain ⟨u, v, huv⟩ := hinf
  exact ⟨b :: u, v, congrArg (List.cons b) huv⟩

theorem noLit0x_head {bs : List Nat} : ¬ noLit0x (60 :: 48 :: 120 :: bs) := by
  unfold noLit0x
  intro h
  exact h ⟨[], bs, rfl⟩

theorem noLit0x_append_left {xs ys : List Nat} (h : noLit0x (xs ++ ys)) :
    noLit0x xs := by
  unfold noLit0x at *
  intro hinf
  apply h
  obtain ⟨u, v, huv⟩ := hinf
  refine ⟨u, v ++ ys, ?_⟩
  rw [← huv]
  simp [List.append_assoc]

theorem noLit0x_append_right {xs ys : List Nat} (h : noLit0x (xs ++ ys)) :
    noLit0x ys := by
  unfold noLit0x at *
  intro hinf
  apply h
  obtain ⟨u, v, huv⟩ := hinf
  refine ⟨xs ++ u, v, ?_⟩
  rw [← huv]
  simp [List.append_assoc]

/-- If the byte list does not start `48 :: 120 :: _` ("0x"), its rendering
cannot start with the characters `'0' :: 'x' :: _ :: _ :: '>' :: _`. -/
theorem atoms_not_0x {rest : List Nat} (hlt : ∀ x ∈ rest, x < 256)
    (hno : ¬ ∃ rest2, rest = 48 :: 120 :: rest2) :
    ∀ (c4 c5 : Char) (r : List Char),
      atomsOf rest ≠ '0' :: 'x' :: c4 :: c5 :: '>' :: r := by
  intro c4 c5 r heq
  cases rest with
  | nil => exact absurd heq (by simp [atomsOf])
  | cons b1 rest1 =>
    rw [atomsOf_cons] at heq
    by_cases hp1 : 32 ≤ b1 ∧ b1 < 127
    · rw [renderByte_data_printable hp1, List.singleton_append] at heq
      have hhead : Char.ofNat b1 = '0' := by
        have := congrArg List.head? heq
        simpa using this
      have htail : atomsOf rest1 = 'x' :: c4 :: c5 :: '>' :: r := by
        have := congrArg List.tail heq
        simpa using this
      have hb256 : b1 < 256 := hlt b1 (List.mem_cons_self _ _)
      have hb1 : b1 = 48 := by
        have h48 := congrArg Char.toNat hhead
        rw [toNat_charOfNat_small (by omega)] at h48
        rw [show Char.toNat '0' = 48 from rfl] at h48
        exact h48
      cases rest1 with
      | nil => exact absurd htail (by simp [atomsOf])
      | cons b2 rest2 =>
        rw [atomsOf_cons] at htail
        by_cases hp2 : 32 ≤ b2 ∧ b2 < 127
        · rw [renderByte_data_printable hp2, List.singleton_append] at htail
          have hhead2 : Char.ofNat b2 = 'x' := by
            have := congrArg List.head? htail
            simpa using this
          have hb2 : b2 = 120 := by
            have h := congrArg Char.toNat hhead2
            rw [toNat_charOfNat_small (by omega)] at h
            rw [show Char.toNat 'x' = 120 from rfl] at h
            exact h
          exact hno ⟨rest2, by rw [hb1, hb2]⟩
        · rw [renderByte_data_escape hp2] at htail
          have hhead2 : '<' = 'x' := by
            have := congrArg List.head? htail
            simpa using this
          exact absurd hhead2 (by decide)
    · rw [renderByte_data_escape hp1] at heq
      have hhead : '<' = '0' := by
        have := congrArg List.head? heq
        simpa using this
      exact absurd hhead (by decide)

/-- Core scanner correctness: the rendering of a byte segment with no
literal `"<0x"` scans back to exactly those bytes. -/
theorem tokenToBytesL_atoms :
    ∀ bs : List Nat, noLit0x bs → (∀ b ∈ bs, b < 256) →
      tokenToBytesL (atomsOf bs) = bs.map some := by
  intro bs
  induction bs with
  | nil => intro _ _; rfl
  | cons b rest ih =>
    intro hfree hlt
    have hb : b < 256 := hlt b (List.mem_cons_self _ _)
    have hrest_free : noLit0x rest := noLit0x_cons hfree
    have hrest_lt : ∀ x ∈ rest, x < 256 := fun x hx => hlt x (List.mem_cons_of_mem _ hx)
    rw [atomsOf_cons]
    by_cases hp : 32 ≤ b ∧ b < 127
    · rw [renderByte_data_printable hp, List.singleton_append]
      by_cases h60 : b = 60
      · subst h60
        have hnostart : ¬ ∃ rest2, rest = 48 :: 120 :: rest2 := by
          rintro ⟨rest2, rfl⟩
          exact noLit0x_head hfree
        have hshape := atoms_not_0x hrest_lt hnostart
        rw [show Char.ofNat 60 = '<' from rfl]
        rw [tokenToBytesL.eq_2 _ _ (fun c4 c5 r hc hr => hshape c4 c5 r hr)]
        rw [ih hrest_free hrest_lt, List.map_cons]
        rfl
      · rw [tokenToBytesL.eq_2 _ _ (fun c4 c5 r hc hr => by
          apply h60
          have := congrArg Char.toNat hc
          rwa [toNat_charOfNat_small (by omega),
            show Char.toNat '<' = 60 from rfl] at this)]
        rw [ih hrest_free hrest_lt, toNat_charOfNat_small (by omega), List.map_cons]
    · rw [renderByte_data_escape hp]
      simp only [List.cons_append, List.nil_append]
      rw [tokenToBytesL.eq_1]
      rw [jsParseIntHex2_hex (hexDigitVal_hexChar _ (by omega))
        (hexDigitVal_hexChar _ (by omega))]
      rw [ih hrest_free hrest_lt, List.map_cons]
      have harith : b / 16 * 16 + b % 16 = b := by omega
      rw [harith]

/-! ## Lemmas: segmentations through the merge pipeline -/

theorem str_mk_append (x y : List Char) :
    String.mk x ++ String.mk y = String.mk (x ++ y) := rfl

theorem seg_init_aux : ∀ bs : List Nat, Seg (bs.map renderByte) bs := by
  intro bs
  induction bs with
  | nil => exact Seg.nil
  | cons b rest ih =>
    rw [List.map_cons]
    have ht : renderByte b = String.mk (atomsOf [b]) := by
      rw [show atomsOf [b] = (renderByte b).data ++ atomsOf [] from atomsOf_cons b []]
      rw [show atomsOf [] = [] from rfl, List.append_nil]
    exact Seg.cons [b] rest _ _ ht ih

theorem seg_init (T : String) : Seg (textToByteTokens T) (textToBytes T) :=
  seg_init_aux (textToBytes T)

theorem seg_merge (t1 t2 : String) :
    ∀ ts : List String, ∀ bs : List Nat, Seg ts bs →
      Seg (mergePairs ts t1 t2 (t1 ++ t2)) bs := by
  apply twoStepInduction
  · intro bs hseg
    rw [mergePairs_nil]
    exact hseg
  · intro a bs hseg
    rw [mergePairs_one']
    exact hseg
  · intro a b rest ih1 ih2 bs hseg
    cases hseg with
    | cons p1 bs1 _ _ ha hseg1 =>
      cases hseg1 with
      | cons p2 bs2 _ _ hb hseg2 =>
        rw [mergePairs_cons₂]
        by_cases hc : a = t1 ∧ some b = some t2
        · rw [if_pos hc]
          have hmerged : t1 ++ t2 = String.mk (atomsOf (p1 ++ p2)) := by
            rw [← hc.1, ← Option.some.inj hc.2, ha, hb, str_mk_append,
              atomsOf_append]
          rw [show p1 ++ (p2 ++ bs2) = (p1 ++ p2) ++ bs2 from
            (List.append_assoc _ _ _).symm]
          exact Seg.cons (p1 ++ p2) bs2 _ _ hmerged (ih1 bs2 hseg2)
        · rw [if_neg hc]
          exact Seg.cons p1 (p2 ++ bs2) _ _ ha
            (ih2 (p2 ++ bs2) (Seg.cons p2 bs2 _ _ hb hseg2))

theorem seg_applyMerges :
    ∀ (merges : List (String × String × String)) (ts : List String)
      (bs : List Nat),
      (∀ e ∈ merges, e.2.2 = e.1 ++ e.2.1) → Seg ts bs →
      Seg (applyMerges merges ts) bs := by
  intro merges
  induction merges with
  | nil => intro ts bs _ hseg; exact hseg
  | cons e rest ih =>
    intro ts bs hsh hseg
    unfold applyMerges at *
    rw [List.foldl_cons]
    apply ih _ _ (fun x hx => hsh x (List.mem_cons_of_mem _ hx))
    have he : e.2.2 = e.1 ++ e.2.1 := hsh e (List.mem_cons_self _ _)
    rw [he]
    exact seg_merge e.1 e.2.1 ts bs hseg

theorem seg_bytes :
    ∀ {ts : List String} {bs : List Nat}, Seg ts bs → noLit0x bs →
      (∀ b ∈ bs, b < 256) → ts.flatMap tokenToBytes = bs.map some := by
  intro ts bs hseg
  induction hseg with
  | nil => intro _ _; rfl
  | cons p bs' t ts' ht hseg ih =>
    intro hfree hlt
    rw [List.flatMap_cons]
    have h1 : tokenToBytes t = p.map some := by
      rw [ht]
      exact tokenToBytesL_atoms p (noLit0x_append_left hfree)
        (fun b hb => hlt b (List.mem_append.mpr (Or.inl hb)))
    rw [h1, ih (noLit0x_append_right hfree)
      (fun b hb => hlt b (List.mem_append.mpr (Or.inr hb))), List.map_append]

/-- C1 (amended): round trip for every text whose UTF-8 bytes contain no
contiguous occurrence of the literal characters `"<0x"` (bytes 60,48,120):
whenever `encode` over a trained vocabulary/merge table succeeds, `decode`
of the resulting IDs gives back the text exactly, for all Unicode input.
(Without that proviso the round trip can fail — see the counterexample.) -/
theorem roundtrip_amended (T train : String) (N : Nat) (ids : List Nat)
    (hfree : noLit0x (textToBytes T))
    (henc : encode T (trainBPE train N).vocab (trainBPE train N).merges
      = Except.ok ids) :
    decode ids (trainBPE train N).vocab = Except.ok T := by
  obtain ⟨r, hr, hbpe⟩ := trainBPE_terminates train N
  have hm : ∀ e ∈ (trainBPE train N).merges, e.2.2 = e.1 ++ e.2.1 := by
    rw [hbpe]
    exact trainLoop_merges_concat _ _ _ _ _ _ _ _ hr
      (fun e he => absurd he (List.not_mem_nil e))
  have hseg : Seg (applyMerges (trainBPE train N).merges (textToByteTokens T))
      (textToBytes T) := seg_applyMerges _ _ _ hm (seg_init T)
  have hbytes : (applyMerges (trainBPE train N).merges
      (textToByteTokens T)).flatMap tokenToBytes = (textToBytes T).map some :=
    seg_bytes hseg hfree (textToBytes_lt_256 T)
  have henc' : encodeIds (trainBPE train N).vocab
      (applyMerges (trainBPE train N).merges (textToByteTokens T))
      = Except.ok ids := henc
  have hdecTok : decodeTokens (trainBPE train N).vocab ids
      = .ok (applyMerges (trainBPE train N).merges (textToByteTokens T)) :=
    decodeTokens_of_encodeIds henc'
  unfold decode
  rw [hdecTok]
  show Except.ok (bytesToText ((applyMerges (trainBPE train N).merges
    (textToByteTokens T)).flatMap tokenToBytes)) = Except.ok T
  rw [hbytes, bytesToText_encode]

theorem roundtrip_amended_witness :
    noLit0x (textToBytes "ab") ∧
    encode "ab" (trainBPE "abab" 257).vocab (trainBPE "abab" 257).merges
      = Except.ok [256] ∧
    decode [256] (trainBPE "abab" 257).vocab = Except.ok "ab" := by
  have hfree : noLit0x (textToBytes "ab") := by decide
  have henc : encode "ab" (trainBPE "abab" 257).vocab
      (trainBPE "abab" 257).merges = Except.ok [256] := by
    rw [trainBPE_eq_loop, initializeByteVocab_eq]
    decide
  exact ⟨hfree, henc, roundtrip_amended "ab" "abab" 257 [256] hfree henc⟩
